import Mathlib

/-! Verification development for the sabrina_doc_gen graph pipeline.

Shallow embedding of the code in src/lsp_json/lsp_prune.py,
src/lsp_build_deps.py, src/lsp_json/integrate.py and
src/llm_input_gen/topo.py, together with theorems settling the documented
properties of those stages. -/

/-! ### Generic helpers: Python dictionaries, stable sorting, deduplication,
string primitives.  Python strings are modeled as Lean strings; the string
operations the code uses (startswith, endswith, rsplit, substring search,
slicing) are defined over the underlying character lists. -/

/-- Lookup in an association list (Python dict read). -/
def dlookup {K V : Type} [DecidableEq K] (k : K) : List (K × V) → Option V
  | [] => none
  | p :: rest => if p.1 = k then some p.2 else dlookup k rest

/-- Insertion with Python dict semantics: an existing key is overwritten in
place (keeping its original position), a new key is appended at the end. -/
def dinsert {K V : Type} [DecidableEq K] (k : K) (v : V) : List (K × V) → List (K × V)
  | [] => [(k, v)]
  | p :: rest => if p.1 = k then (k, v) :: rest else p :: dinsert k v rest

/-- Update the value stored at a key, if present (models mutating a dict
entry in place). -/
def dmodify {K V : Type} [DecidableEq K] (k : K) (f : V → V) : List (K × V) → List (K × V)
  | [] => []
  | p :: rest => if p.1 = k then (p.1, f p.2) :: rest else p :: dmodify k f rest

/-- Stable insertion: x is placed before the first element it is
less-or-equal to, so earlier input elements stay before equal later ones. -/
def insertBy {α : Type} (le : α → α → Bool) (x : α) : List α → List α
  | [] => [x]
  | y :: ys => if le x y then x :: y :: ys else y :: insertBy le x ys

/-- Stable ascending sort (models Python sorted and list.sort). -/
def sortBy {α : Type} (le : α → α → Bool) (l : List α) : List α := l.foldr (insertBy le) []

/-- Code-point lexicographic comparison of character lists (the ordering
Python uses on strings). -/
def charsLe : List Char → List Char → Bool
  | [], _ => true
  | _ :: _, [] => false
  | a :: as, b :: bs =>
    if a.toNat < b.toNat then true
    else if b.toNat < a.toNat then false
    else charsLe as bs

/-- Strict code-point lexicographic comparison of character lists. -/
def charsLt : List Char → List Char → Bool
  | _, [] => false
  | [], _ :: _ => true
  | a :: as, b :: bs =>
    if a.toNat < b.toNat then true
    else if b.toNat < a.toNat then false
    else charsLt as bs

/-- Lexicographic comparison used for sorting strings ascending. -/
def strLe (a b : String) : Bool := charsLe a.data b.data

/-- Strict lexicographic comparison of strings. -/
def strLt (a b : String) : Bool := charsLt a.data b.data

/-- Ascending sort of a list of strings. -/
def sortStr : List String → List String := sortBy strLe

/-- Seen-set loop of the deduplication code: emit each element whose value
has not been seen before. -/
def pyDedupAux {α : Type} [DecidableEq α] (seen : List α) : List α → List α
  | [] => []
  | x :: xs => if x ∈ seen then pyDedupAux seen xs else x :: pyDedupAux (x :: seen) xs

/-- Deduplication keeping the first occurrence of each element (models the
seen-set loops in the code). -/
def pyDedup {α : Type} [DecidableEq α] (l : List α) : List α := pyDedupAux [] l

/-- Split a character list at its last colon, returning the parts before and
after it, or none when no colon occurs (models str.rsplit with one split). -/
def rsplitColon : List Char → Option (List Char × List Char)
  | [] => none
  | c :: cs =>
    match rsplitColon cs with
    | some p => some (c :: p.1, p.2)
    | none => if c = ':' then some ([], cs) else none

/-- Python str.startswith. -/
def pyStartswith (s p : String) : Bool := p.toList.isPrefixOf s.toList

/-- Python str.endswith. -/
def pyEndswith (s p : String) : Bool := p.toList.isSuffixOf s.toList

/-- Containment of one character list in another (the Python `in` operator on
strings). -/
def listInfix (p l : List Char) : Bool := decide (p <:+: l)

/-- Suffix of a character list starting at the first occurrence of "/usr/",
if any; models the expression s[s.index("/usr/"):] together with its guard
"/usr/" in s. -/
def fromFirstUsr : List Char → Option (List Char)
  | [] => none
  | c :: cs =>
    if ("/usr/".toList).isPrefixOf (c :: cs) then some (c :: cs) else fromFirstUsr cs

/-! ### Topological sequencer: shallow embedding of src/llm_input_gen/topo.py.

A symbol record enters the ordering only through its "id" and "calls"
fields; an id that is absent or not a string is modeled as none, and calls
entries that are not strings can never test equal to a node id, so calls is
modeled as a list of strings. -/

/-- Symbol record as consumed by topo_order. -/
structure TSym where
  id : Option String
  calls : List String
deriving DecidableEq

/-- topo.py is_external. -/
def is_external (sym_id : String) : Bool :=
  pyStartswith sym_id "/" || pyStartswith sym_id "external:/"

/-- Project id of a symbol record: its id when present and not external
(the guards on topo.py lines 29 and 34-36). -/
def projId (s : TSym) : Option String :=
  match s.id with
  | some sid => if is_external sid then none else some sid
  | none => none

/-- Node set of the ordering graph (topo.py line 29).  The Python set is
modeled as a first-occurrence-deduplicated list; every later use sorts it or
tests membership, so set iteration order is immaterial. -/
def idsOf (symbols : List TSym) : List String := (symbols.filterMap projId).dedup

/-- Add the call edges of one symbol to the adjacency and in-degree maps
(topo.py lines 33-42): each distinct (source, target) pair is added once and
increments the in-degree of its target. -/
def addEdges (ids : List String) (acc : (String → List String) × (String → Int)) (s : TSym) :
    (String → List String) × (String → Int) :=
  match projId s with
  | none => acc
  | some sid =>
    s.calls.foldl
      (fun acc2 d =>
        if d ∈ ids then
          if d ∈ acc2.1 sid then acc2
          else
            (fun k => if k = sid then acc2.1 sid ++ [d] else acc2.1 k,
             fun k => if k = d then acc2.2 d + 1 else acc2.2 k)
        else acc2)
      acc

/-- Adjacency and in-degree of the ordering graph (topo.py lines 30-42). -/
def buildGraph (symbols : List TSym) : (String → List String) × (String → Int) :=
  symbols.foldl (addEdges (idsOf symbols)) (fun _ => [], fun _ => 0)

/-- Inner loop of one Kahn step (topo.py lines 50-53): decrement the
in-degree of each out-neighbor of v in ascending order, appending those that
reach zero to the queue. -/
def relax (out_e : String → List String) (v : String) (in_deg : String → Int)
    (q : List String) : (String → Int) × List String :=
  (sortStr (out_e v)).foldl
    (fun st w =>
      ((fun k => if k = w then st.1 w - 1 else st.1 k),
       if st.1 w - 1 = 0 then st.2 ++ [w] else st.2))
    (in_deg, q)

/-- Kahn worklist loop (topo.py lines 47-54), returning the emitted order and
the final in-degree map.  The queue is kept sorted, so popping its head is
popping the smallest element.  Fuel bounds the iteration count; one node is
appended per iteration and no node is ever enqueued twice, so fuel equal to
the node count never runs out (established in the theorems below). -/
def kahnLoop (out_e : String → List String) :
    Nat → List String → (String → Int) → List String → List String × (String → Int)
  | _, [], in_deg, order => (order, in_deg)
  | 0, _ :: _, in_deg, order => (order, in_deg)
  | fuel + 1, v :: rest, in_deg, order =>
    let p := relax out_e v in_deg rest
    kahnLoop out_e fuel (sortStr p.2) p.1 (order ++ [v])

/-- Initial queue and worklist run of topo_order (topo.py lines 45-54). -/
def kahnState (symbols : List TSym) : List String × (String → Int) :=
  let ids := idsOf symbols
  let g := buildGraph symbols
  kahnLoop g.1 ids.length (sortStr (ids.filter (fun v => g.2 v = 0))) g.2 []

/-- Order emitted by the Kahn phase, before the cycle fallback. -/
def kahn_phase (symbols : List TSym) : List String := (kahnState symbols).1

/-- Residual nodes whose in-degree never reached zero, in ascending order
(topo.py lines 57-58). -/
def topoRemaining (symbols : List TSym) : List String :=
  sortStr ((idsOf symbols).filter
    (fun v => decide (0 < (kahnState symbols).2 v) && !((kahn_phase symbols).contains v)))

/-- topo.py topo_order. -/
def topo_order (symbols : List TSym) (reverse : Bool) : List String :=
  let order := kahn_phase symbols ++ topoRemaining symbols
  if reverse then order.reverse else order

/-- One breadth step of reachability in the ordering graph. -/
def reachStep (adj : String → List String) (fr : List String) : List String :=
  (fr ++ fr.flatMap adj).dedup

/-- Iterated breadth steps. -/
def reachIter (adj : String → List String) : Nat → List String → List String
  | 0, fr => fr
  | n + 1, fr => reachIter adj n (reachStep adj fr)

/-- Participation in a directed cycle, the notion used by the specification:
v lies on a cycle exactly when v is reachable from its own successors.
Iterating the breadth step as many times as there are nodes saturates
reachability. -/
def onCycle (symbols : List TSym) (v : String) : Prop :=
  v ∈ reachIter (buildGraph symbols).1 (idsOf symbols).length ((buildGraph symbols).1 v)

instance (symbols : List TSym) (v : String) : Decidable (onCycle symbols v) := by
  unfold onCycle; infer_instance

/-! ### Graph integrator: shallow embedding of src/lsp_json/integrate.py.

The input type captures well-formed pruned symbol tables as produced by the
prune stage: each symbol carries the fields integrate reads (file, name,
definitions); a field that may be absent or not a string is an Option.
Pruned symbols carry no calls/calledBy fields, so the setdefault calls in
build_indices always install empty lists.  The expression
str(Path(s).resolve()) in normalize_external_path depends on the process
working directory; it is modeled by the resolveRel parameter, with its
try/except folded in (a failure returns the input itself, which resolveRel
may also do). -/

/-- Entry of a pruned definitions list. -/
structure PrunedDef where
  absolutePath : Option String
deriving DecidableEq

/-- Pruned symbol record, restricted to the fields integrate reads. -/
structure PrunedSymbol where
  file : Option String
  name : Option String
  definitions : List PrunedDef
deriving DecidableEq

/-- Pruned symbol table. -/
structure Pruned where
  repoRoot : String
  symbols : List PrunedSymbol
deriving DecidableEq

/-- Raw dependency edge; an endpoint that is absent or not a string is
modeled as none. -/
structure DepEdge where
  src : Option String
  dst : Option String
deriving DecidableEq

/-- Dependency document as read by integrate. -/
structure Deps where
  function_edges : List DepEdge
deriving DecidableEq

/-- integrate.py PROJECT_TOKEN. -/
def PROJECT_TOKEN : String := "PROJECT"

/-- integrate.py compute_symbol_id. -/
def compute_symbol_id (sym : PrunedSymbol) : Option String :=
  match sym.name with
  | none => none
  | some name =>
    let viaDef : Option String :=
      match sym.definitions with
      | d0 :: _ =>
        match d0.absolutePath with
        | some ap => if ap ≠ "" then some (ap ++ ":" ++ name) else none
        | none => none
      | [] => none
    match viaDef with
    | some sid => some sid
    | none =>
      match sym.file with
      | some f => if f ≠ "" then some (PROJECT_TOKEN ++ "/" ++ f ++ ":" ++ name) else none
      | none => none

/-- integrate.py make_external_id. -/
def make_external_id (abs_path name : String) : String := abs_path ++ ":" ++ name

/-- integrate.py normalize_external_path (see the module comment for the
resolveRel parameter). -/
def normalize_external_path (resolveRel : String → String) (s : String) : String :=
  match fromFirstUsr s.toList with
  | some suf => String.mk suf
  | none => if pyStartswith s "/" then s else resolveRel s

/-- integrate.py parse_dep_endpoint. -/
def parse_dep_endpoint (resolveRel : String → String) (ep : String) : String × String :=
  match rsplitColon ep.toList with
  | none => (ep, "")
  | some p =>
    let file_part := String.mk p.1
    let name := String.mk p.2
    if listInfix "/usr/".toList file_part.toList && !(pyStartswith file_part "/usr/") then
      (normalize_external_path resolveRel file_part, name)
    else (file_part, name)

/-- Integrated project symbol: the pruned fields plus id, calls, calledBy. -/
structure ISym where
  id : String
  file : Option String
  name : Option String
  definitions : List PrunedDef
  calls : List String
  calledBy : List String
deriving DecidableEq

/-- Externals registry entry. -/
structure ExternalSym where
  id : String
  absolutePath : String
  name : String
deriving DecidableEq

/-- Output document of integrate. -/
structure Integrated where
  projectRootToken : String
  repoRoot : String
  symbols : List ISym
  externals : List ExternalSym
deriving DecidableEq

/-- integrate.py build_indices: by_id (id to integrated symbol) and
by_file_name ((file, name) to id), with dict overwrite semantics. -/
def build_indices (pruned : Pruned) :
    List (String × ISym) × List ((String × String) × String) :=
  pruned.symbols.foldl
    (fun acc sym =>
      match compute_symbol_id sym with
      | none => acc
      | some sid =>
        let by_id := dinsert sid ⟨sid, sym.file, sym.name, sym.definitions, [], []⟩ acc.1
        let by_fn :=
          match sym.file, sym.name with
          | some f, some n => dinsert (f, n) sid acc.2
          | _, _ => acc.2
        (by_id, by_fn))
    ([], [])

/-- integrate.py id_from_dep_endpoint (closure inside integrate). -/
def id_from_dep_endpoint (resolveRel : String → String)
    (by_file_name : List ((String × String) × String)) (ep : String) : Option String :=
  let p := parse_dep_endpoint resolveRel ep
  let file_part := p.1
  let name := p.2
  if name = "" then none
  else if pyStartswith file_part (PROJECT_TOKEN ++ "/") then
    let proj_rel := String.mk (file_part.toList.drop (PROJECT_TOKEN.length + 1))
    match dlookup (proj_rel, name) by_file_name with
    | some sid => some sid
    | none => some (file_part ++ ":" ++ name)
  else if !(pyStartswith file_part "/") then
    match dlookup (file_part, name) by_file_name with
    | some sid => some sid
    | none => some (PROJECT_TOKEN ++ "/" ++ file_part ++ ":" ++ name)
  else some (make_external_id (normalize_external_path resolveRel file_part) name)

/-- Registration step of the edge loop (integrate.py lines 193-201): when an
endpoint id is neither a project symbol nor already registered, and its file
part is absolute, insert an externals entry for it. -/
def registerExternal (resolveRel : String → String) (by_id : List (String × ISym))
    (ext : List (String × ExternalSym)) (raw eid : String) : List (String × ExternalSym) :=
  if (dlookup eid by_id).isNone && (dlookup eid ext).isNone then
    let p := parse_dep_endpoint resolveRel raw
    if pyStartswith p.1 "/" then
      dinsert eid ⟨eid, normalize_external_path resolveRel p.1, p.2⟩ ext
    else ext
  else ext

/-- Attachment of a calls entry (integrate.py lines 204-206). -/
def attachCalls (by_id : List (String × ISym)) (src_id dst_id : String) :
    List (String × ISym) :=
  if (dlookup src_id by_id).isSome then
    dmodify src_id
      (fun s => if dst_id ∈ s.calls then s else { s with calls := s.calls ++ [dst_id] })
      by_id
  else by_id

/-- Attachment of a calledBy entry (integrate.py lines 207-209). -/
def attachCalledBy (by_id : List (String × ISym)) (src_id dst_id : String) :
    List (String × ISym) :=
  if (dlookup dst_id by_id).isSome then
    dmodify dst_id
      (fun s => if src_id ∈ s.calledBy then s else { s with calledBy := s.calledBy ++ [src_id] })
      by_id
  else by_id

/-- Process one dependency edge (integrate.py lines 182-209): skip non-string
or unresolvable endpoints, register missing external endpoints, then extend
the calls and calledBy lists of in-project endpoints. -/
def integrateEdge (resolveRel : String → String)
    (by_file_name : List ((String × String) × String))
    (st : List (String × ISym) × List (String × ExternalSym)) (e : DepEdge) :
    List (String × ISym) × List (String × ExternalSym) :=
  match e.src, e.dst with
  | some src_raw, some dst_raw =>
    (match id_from_dep_endpoint resolveRel by_file_name src_raw,
           id_from_dep_endpoint resolveRel by_file_name dst_raw with
     | some src_id, some dst_id =>
       let ext1 := registerExternal resolveRel st.1 st.2 src_raw src_id
       let ext2 := registerExternal resolveRel st.1 ext1 dst_raw dst_id
       let by1 := attachCalls st.1 src_id dst_id
       let by2 := attachCalledBy by1 src_id dst_id
       (by2, ext2)
     | _, _ => st)
  | _, _ => st

/-- integrate.py integrate. -/
def integrate (resolveRel : String → String) (pruned : Pruned) (deps : Deps) : Integrated :=
  let idx := build_indices pruned
  let st := deps.function_edges.foldl (integrateEdge resolveRel idx.2) (idx.1, [])
  let symbols_out := (st.1.map Prod.snd).map
    (fun s => { s with calls := sortStr s.calls, calledBy := sortStr s.calledBy })
  { projectRootToken := PROJECT_TOKEN
    repoRoot := pruned.repoRoot
    symbols := sortBy (fun a b => strLe a.id b.id) symbols_out
    externals := sortBy (fun a b => strLe a.id b.id) (st.2.map Prod.snd) }

/-! ### JSON-ish values.

The dependency builder and the range utilities inspect dynamically typed
JSON data (isinstance checks, falsiness, dict.get).  J models such values.
Operations that can raise in Python (attribute access on a non-dict,
int() of a non-numeric value) return Except Unit.  int() of a numeric
string succeeds in Python but cannot occur in LSP position data and is
modeled as a conversion error; a JSON boolean used as a position (Python
bool is an int) is likewise not modeled. -/

inductive J where
  | null : J
  | jbool : Bool → J
  | jnum : Int → J
  | jstr : String → J
  | jarr : List J → J
  | jobj : List (String × J) → J

/-- Python truthiness of a JSON value. -/
def J.truthy : J → Bool
  | .null => false
  | .jbool b => b
  | .jnum n => n != 0
  | .jstr s => s != ""
  | .jarr xs => !xs.isEmpty
  | .jobj fs => !fs.isEmpty

/-- Python `x or y`. -/
def jor (a b : J) : J := if a.truthy then a else b

/-- dict.get on a value known to be a dict (missing key gives None). -/
def jget (j : J) (k : String) : J :=
  match j with
  | .jobj fs => (dlookup k fs).getD J.null
  | _ => J.null

/-- dict.get with a default on a possibly non-dict receiver; Python raises
AttributeError when the receiver is not a dict. -/
def jgetE (j : J) (k : String) (dflt : J) : Except Unit J :=
  match j with
  | .jobj fs => .ok ((dlookup k fs).getD dflt)
  | _ => .error ()

/-- Python int() on a JSON value. -/
def jToInt : J → Except Unit Int
  | .jnum n => .ok n
  | .jbool b => .ok (if b then 1 else 0)
  | _ => .error ()

/-- Python isinstance(x, int) reading of a JSON value as a position part. -/
def jAsInt : J → Option Int
  | .jnum n => some n
  | _ => none

/-! ### Call-edge builder: shallow embedding of src/lsp_build_deps.py.

Documents are typed down to the fields the code reads; fields the code
checks dynamically (the range values) stay JSON.  A string field that may
be absent or non-string is an Option (the code treats both alike through
isinstance checks).  Reading a source line from disk (get_line_text) is
modeled by an oracle parameter: oracle p n is the text of 0-based line n of
file p, or none when the file or line is unavailable or unreadable. -/

/-- lsp_build_deps.py pos_in_range. -/
def pos_in_range (line ch : Int) (rng : J) : Except Unit Bool :=
  match rng with
  | .jobj _ =>
    (do
      let s := jor (jget rng "start") (J.jobj [])
      let e := jor (jget rng "end") (J.jobj [])
      let sl ← jToInt (← jgetE s "line" (J.jnum (10 ^ 9)))
      let sc ← jToInt (← jgetE s "character" (J.jnum (10 ^ 9)))
      let el ← jToInt (← jgetE e "line" (J.jnum (-1)))
      let ec ← jToInt (← jgetE e "character" (J.jnum (-1)))
      if line < sl ∨ line > el then return false
      else if line = sl ∧ ch < sc then return false
      else if line = el ∧ ch ≥ ec then return false
      else return true)
  | _ => .ok false

/-- Entry of a definitions list as read by canonicalize_callee. -/
structure BDef where
  relativePath : Option String
  absolutePath : Option String

/-- Reference record. -/
structure BRef where
  relativePath : Option String
  absolutePath : Option String
  range : J

/-- Symbol record as read by the dependency builder. -/
structure BSym where
  name : Option String
  kind : Option Int
  range : J
  definitions : List BDef
  references : List BRef

/-- File entry. -/
structure BFile where
  file : Option String
  symbols : List BSym

/-- Input document of build_dependencies. -/
structure BDoc where
  files : List BFile

/-- Function-level or file-level edge. -/
structure Edge where
  src : String
  dst : String
deriving DecidableEq

/-- Output document of build_dependencies. -/
structure BDeps where
  function_edges : List Edge
  file_edges : List Edge
deriving DecidableEq

/-- lsp_build_deps.py symbol_span (defaults of zero for missing parts). -/
def symbol_span (sym : BSym) : Except Unit (Int × Int × Int × Int) :=
  do
    let rng := jor sym.range (J.jobj [])
    let s := jor (← jgetE rng "start" J.null) (J.jobj [])
    let e := jor (← jgetE rng "end" J.null) (J.jobj [])
    let sl ← jToInt (← jgetE s "line" (J.jnum 0))
    let sc ← jToInt (← jgetE s "character" (J.jnum 0))
    let el ← jToInt (← jgetE e "line" (J.jnum 0))
    let ec ← jToInt (← jgetE e "character" (J.jnum 0))
    return (sl, sc, el, ec)

/-- Python `a or b` over optional strings, honoring falsiness of "". -/
def orStrOpt (a b : Option String) : Option String :=
  match a with
  | some s => if s ≠ "" then some s else b
  | none => b

/-- lsp_build_deps.py build_symbol_index (later files override earlier ones
with the same relative path, dict semantics). -/
def build_symbol_index (files : List BFile) : List (String × List BSym) :=
  files.foldl
    (fun idx fe =>
      match fe.file with
      | some fname => dinsert fname fe.symbols idx
      | none => idx)
    []

/-- Components of a character list split on slashes. -/
def splitSlash : List Char → List (List Char)
  | [] => [[]]
  | c :: cs =>
    let r := splitSlash cs
    if c = '/' then [] :: r
    else
      match r with
      | h :: t => (c :: h) :: t
      | [] => [[c]]

/-- pathlib Path(x).name: the last nonempty path component (pathlib collapses
empty components; dot segments are not modeled). -/
def basenamePy (s : String) : String :=
  String.mk (((splitSlash s.toList).filter (fun c => !c.isEmpty)).getLastD [])

/-- lsp_build_deps.py normalize_ref_file: exact key match, else first
suffix match in key order, else first basename match. -/
def normalize_ref_file (ref_file : String) (index_keys : List String) : Option String :=
  if ref_file ∈ index_keys then some ref_file
  else
    match index_keys.find? (fun k => pyEndswith k ref_file || pyEndswith ref_file k) with
    | some k => some k
    | none => index_keys.find? (fun k => basenamePy k == basenamePy ref_file)

/-- lsp_build_deps.py get_line_text over the filesystem oracle. -/
def get_line_text (oracle : String → Int → Option String) (abs_path : Option String)
    (line : Int) : Option String :=
  match abs_path with
  | some p => oracle p line
  | none => none

/-- Python str.strip (whitespace from both ends). -/
def pyStrip (s : String) : String :=
  String.mk (((s.toList.dropWhile Char.isWhitespace).reverse.dropWhile Char.isWhitespace).reverse)

/-- lsp_build_deps.py looks_like_import. -/
def looks_like_import (line_text : Option String) : Bool :=
  match line_text with
  | none => false
  | some t0 =>
    let t := pyStrip t0
    pyStartswith t "import " || pyStartswith t "from "

/-- Python string slice s[a:b] with the usual clamping and negative-index
semantics. -/
def pySliceStr (s : String) (a b : Int) : String :=
  let n : Int := s.toList.length
  let lo := if a < 0 then max 0 (n + a) else min a n
  let hi := if b < 0 then max 0 (n + b) else min b n
  String.mk ((s.toList.take hi.toNat).drop lo.toNat)

/-- lsp_build_deps.py looks_like_call_context: an opening parenthesis within
64 characters after the column, permissive when text or column is missing. -/
def looks_like_call_context (line_text : Option String) (col : Option Int) : Bool :=
  match line_text, col with
  | some t, some c => listInfix "(".toList (pySliceStr t c (c + 64)).toList
  | _, _ => true

/-- lsp_build_deps.py canonicalize_callee. -/
def canonicalize_callee (sym : BSym) (fallback_file : String) : String × String :=
  match sym.name with
  | none => (fallback_file, "<unknown>")
  | some callee_name =>
    match sym.definitions with
    | d0 :: _ =>
      (match orStrOpt d0.relativePath d0.absolutePath with
       | some def_path => (def_path, callee_name)
       | none => (fallback_file, callee_name))
    | [] => (fallback_file, callee_name)

/-- Sort key of find_enclosing_symbol: prefer method or function kinds, then
smaller spans. -/
def sortKeyPy (sym : BSym) : Except Unit (Int × Int) :=
  do
    let sp ← symbol_span sym
    let pref : Int := if sym.kind == some 6 || sym.kind == some 12 then 0 else 1
    return (pref, (sp.2.2.1 - sp.1) * 10000 + (sp.2.2.2 - sp.2.1))

/-- Lexicographic comparison of integer pairs (Python tuple comparison). -/
def pairLeInt (a b : Int × Int) : Bool :=
  decide (a.1 < b.1) || (decide (a.1 = b.1) && decide (a.2 ≤ b.2))

/-- lsp_build_deps.py find_enclosing_symbol: collect symbols whose range
contains the position, stable-sort by the preference key, return the first.
The empty branch after sorting is unreachable (candidates is nonempty). -/
def find_enclosing_symbol (symbols : List BSym) (line ch : Int) :
    Except Unit (Option BSym) :=
  do
    let candidates ← symbols.foldlM
      (fun acc s => do
        let b ← pos_in_range line ch (jor s.range (J.jobj []))
        return if b then acc ++ [s] else acc)
      ([] : List BSym)
    match candidates with
    | [] => return none
    | _ :: _ =>
      let keyed ← candidates.mapM (fun s => do
        let k ← sortKeyPy s
        return (k, s))
      match sortBy (fun a b => pairLeInt a.1 b.1) keyed with
      | best :: _ => return some best.2
      | [] => return none

/-- Value of (callee range .get start or {}).get line, as tested by
isinstance(.., int) (lsp_build_deps.py lines 189-190). -/
def callee_def_line_of (sym : BSym) : Except Unit (Option Int) :=
  do
    let rng := jor sym.range (J.jobj [])
    let start := jor (← jgetE rng "start" J.null) (J.jobj [])
    let lineJ ← jgetE start "line" J.null
    return jAsInt lineJ

/-- Handle one reference of a callee (body of the innermost loop of
build_dependencies, lines 192-247): returns the emitted edge together with
the resolved reference file key, or none when the reference is skipped. -/
def process_ref (oracle : String → Int → Option String)
    (index : List (String × List BSym)) (index_keys : List String)
    (callee_name callee_id : String) (callee_def_line : Option Int) (ref : BRef) :
    Except Unit (Option (Edge × String)) :=
  match orStrOpt ref.relativePath ref.absolutePath with
  | none => .ok none
  | some ref_file =>
    match ref.range with
    | J.jobj _ =>
      (do
        let start := jor (jget ref.range "start") (J.jobj [])
        let lineJ ← jgetE start "line" J.null
        let colJ ← jgetE start "character" J.null
        let line := jAsInt lineJ
        let col := jAsInt colJ
        let ref_line_text :=
          match line with
          | some ln => get_line_text oracle ref.absolutePath ln
          | none => none
        if looks_like_import ref_line_text then return none
        else if (match callee_def_line, line with
                 | some dl, some ln => decide (ln = dl)
                 | _, _ => false) then return none
        else if !looks_like_call_context ref_line_text col then return none
        else
          match normalize_ref_file ref_file index_keys with
          | none => return none
          | some ref_file_key =>
            match dlookup ref_file_key index with
            | none => return none
            | some syms_in_ref_file =>
              if syms_in_ref_file.isEmpty then return none
              else do
                let enc ← find_enclosing_symbol syms_in_ref_file
                  (line.getD (-1)) (col.getD (-1))
                match enc with
                | none => return none
                | some caller_sym =>
                  let caller_name := caller_sym.name.getD "<unknown>"
                  let sp ← symbol_span caller_sym
                  if caller_name = callee_name ∧ sp.2.2.1 - sp.1 = 0 ∧
                      sp.2.2.2 - sp.2.1 < 64 then return none
                  else
                    let caller_id := ref_file_key ++ ":" ++ caller_name
                    if caller_id ≠ callee_id then
                      return some (⟨caller_id, callee_id⟩, ref_file_key)
                    else return none)
    | _ => .ok none

/-- Handle one callee symbol: canonicalize it, then process its references,
accumulating function edges (in order) and the set of file-level edges. -/
def process_symbol (oracle : String → Int → Option String)
    (index : List (String × List BSym)) (index_keys : List String)
    (callee_file_rel : String) (st : List Edge × List (String × String)) (sym : BSym) :
    Except Unit (List Edge × List (String × String)) :=
  do
    let canon := canonicalize_callee sym callee_file_rel
    let callee_file_key := (normalize_ref_file canon.1 index_keys).getD canon.1
    let callee_id := callee_file_key ++ ":" ++ canon.2
    let cdl ← callee_def_line_of sym
    sym.references.foldlM
      (fun st2 ref => do
        let r ← process_ref oracle index index_keys canon.2 callee_id cdl ref
        match r with
        | none => return st2
        | some er =>
          let fes :=
            if er.2 ≠ callee_file_key then
              if (er.2, callee_file_key) ∈ st2.2 then st2.2
              else st2.2 ++ [(er.2, callee_file_key)]
            else st2.2
          return (st2.1 ++ [er.1], fes))
      st

/-- Lexicographic comparison of string pairs (Python tuple comparison). -/
def pairLeStr (a b : String × String) : Bool :=
  strLt a.1 b.1 || (decide (a.1 = b.1) && strLe a.2 b.2)

/-- lsp_build_deps.py build_dependencies. -/
def build_dependencies (oracle : String → Int → Option String) (data : BDoc) :
    Except Unit BDeps :=
  let index := build_symbol_index data.files
  let index_keys := index.map Prod.fst
  do
    let st ← data.files.foldlM
      (fun st fe =>
        match fe.file with
        | none => pure st
        | some callee_file_rel =>
          fe.symbols.foldlM (process_symbol oracle index index_keys callee_file_rel) st)
      (([] : List Edge), ([] : List (String × String)))
    return { function_edges := pyDedup st.1
             file_edges := (sortBy pairLeStr st.2).map (fun p => ⟨p.1, p.2⟩) }

/-! ### Symbol pruner: shallow embedding of src/lsp_json/lsp_prune.py.

prune_hover pops the range key out of the hover dicts it receives.  Python
dict.pop mutates its receiver, and the value prune_hover returns reuses the
very objects of its argument, so one function describes both the returned
value and the value the caller's data has after the call.  dict.pop removes
one key; on Python dicts keys are unique, so removal is modeled as a filter
over the field list. -/

/-- Removal of the range key from a dict value (hv.pop applied when hv is a
dict, identity otherwise). -/
def popRange : J → J
  | .jobj fs => .jobj (fs.filter (fun p => p.1 ≠ "range"))
  | x => x

/-- lsp_prune.py prune_hover. -/
def prune_hover : J → J
  | .jarr xs => .jarr (xs.map popRange)
  | .jobj fs => .jobj (fs.filter (fun p => p.1 ≠ "range"))
  | x => x

/-- Value of one symbol record (its field list) after the stage body of
lsp_prune.py main (lines 148-159) ran on it: the hover field is the only
data the stage mutates in place, through prune_hover; every other field is
only read. -/
def symbol_post (fields : List (String × J)) : List (String × J) :=
  fields.map (fun p => if p.1 = "hover" then (p.1, prune_hover p.2) else p)

/-- Value of the input symbols list after the pruning stage completed. -/
def stage_post (syms : List (List (String × J))) : List (List (String × J)) :=
  syms.map symbol_post

/-- No dict in this hover value carries a range key (so popping is the
identity on it). -/
def hoverRangeFree : J → Bool
  | .jarr xs =>
    xs.all (fun x =>
      match x with
      | .jobj fs => fs.all (fun p => p.1 ≠ "range")
      | _ => true)
  | .jobj fs => fs.all (fun p => p.1 ≠ "range")
  | _ => true

/-- Every hover field of every symbol is range-free. -/
def stageRangeFree (syms : List (List (String × J))) : Bool :=
  syms.all (fun fields => fields.all (fun p => p.1 ≠ "hover" || hoverRangeFree p.2))

/-! ### Path normalizer: shallow embedding of lsp_prune.py normalize_path.

Path(abs_path).resolve() consults the filesystem, so resolution is a
parameter: resolve p is some comps — the component list of the resolved
absolute path (the root path being the empty list) — or none for any
path-resolution error (the except branch).  repo_root is resolved by the
caller and passed as its component list. -/

/-- Proper ancestors of a resolved absolute path as component lists, longest
first (pathlib Path.parents). -/
def pathParents (comps : List String) : List (List String) :=
  ((List.range comps.length).map (fun i => comps.take i)).reverse

/-- POSIX rendering of comps relative to root (pathlib relative_to followed
by as_posix; a path relative to itself renders as "."). -/
def posixRelTo (root comps : List String) : String :=
  let rel := comps.drop root.length
  if rel.isEmpty then "." else String.intercalate "/" rel

/-- lsp_prune.py PROJECT_ROOT_TOKEN. -/
def PROJECT_ROOT_TOKEN : String := "PROJECT"

/-- lsp_prune.py normalize_path. -/
def normalize_path (resolve : String → Option (List String)) (abs_path : String)
    (repo_root : List String) : String :=
  match resolve abs_path with
  | none => abs_path
  | some comps =>
    if repo_root ∈ pathParents comps ∨ comps = repo_root then
      PROJECT_ROOT_TOKEN ++ "/" ++ posixRelTo repo_root comps
    else abs_path

/-! ### Concrete inputs used by individual claims. -/

/-- Range literal with the given start and end positions. -/
def mkRange (sl sc el ec : Int) : J :=
  J.jobj [("start", J.jobj [("line", J.jnum sl), ("character", J.jnum sc)]),
          ("end", J.jobj [("line", J.jnum el), ("character", J.jnum ec)])]

/-- Reference located in b.py at line l (column 4). -/
def c4R (l : Int) : BRef :=
  { relativePath := some "b.py", absolutePath := none, range := mkRange l 4 (l + 1) 0 }

/-- Callee S declared in a.py at line d, with one reference in b.py. -/
def c4S (l d : Int) : BSym :=
  { name := some "S", kind := some 12, range := mkRange d 0 (d + 1) 0,
    definitions := [], references := [c4R l] }

/-- Caller C declared in b.py, spanning lines 0 to 1000000. -/
def c4C : BSym :=
  { name := some "C", kind := some 12, range := mkRange 0 0 1000000 0,
    definitions := [], references := [] }

/-- Document family exercising the self-reference rejection step: callee S is
declared in a.py at line d, and one reference to it is recorded in b.py at
line l, inside the body of caller C. -/
def c4doc (l d : Int) : BDoc :=
  { files :=
      [{ file := some "a.py", symbols := [c4S l d] },
       { file := some "b.py", symbols := [c4C] }] }

/-- Symbols forming the pure three-cycle of Scenario 3. -/
def cycSymA : TSym := { id := some "a", calls := ["b"] }

/-- Second symbol of the three-cycle. -/
def cycSymB : TSym := { id := some "b", calls := ["c"] }

/-- Third symbol of the three-cycle. -/
def cycSymC : TSym := { id := some "c", calls := ["a"] }

/-- Graph with a two-cycle between c and d, an edge from the cycle to z, and
an edge from z to a: the edge z to a joins two nodes that lie on no directed
cycle, yet both sit downstream of one. -/
def downstreamSyms : List TSym :=
  [{ id := some "c", calls := ["d"] },
   { id := some "d", calls := ["c", "z"] },
   { id := some "z", calls := ["a"] },
   { id := some "a", calls := [] }]

/-- Two-symbol acyclic chain: x calls y. -/
def c2Syms : List TSym :=
  [{ id := some "x", calls := ["y"] }, { id := some "y", calls := [] }]


/-! ### Lemma library: permutation facts about the sorting and dictionary
helpers, string-prefix facts, and index arithmetic. -/

theorem insertBy_perm {α : Type} (le : α → α → Bool) (x : α) (l : List α) :
    (insertBy le x l).Perm (x :: l) := by
  induction l with
  | nil => exact List.Perm.refl _
  | cons y ys ih =>
    unfold insertBy
    by_cases h : le x y
    · simp [h]
    · simp only [h, if_false]
      exact (List.Perm.cons y ih).trans (List.Perm.swap x y ys)

theorem sortBy_perm {α : Type} (le : α → α → Bool) (l : List α) :
    (sortBy le l).Perm l := by
  induction l with
  | nil => exact List.Perm.refl _
  | cons x xs ih =>
    have h1 : sortBy le (x :: xs) = insertBy le x (sortBy le xs) := rfl
    rw [h1]
    exact (insertBy_perm le x (sortBy le xs)).trans (List.Perm.cons x ih)

theorem sortBy_mem {α : Type} (le : α → α → Bool) (l : List α) (x : α) :
    x ∈ sortBy le l ↔ x ∈ l := (sortBy_perm le l).mem_iff

theorem sortStr_mem (l : List String) (x : String) : x ∈ sortStr l ↔ x ∈ l :=
  sortBy_mem strLe l x

theorem sortStr_nodup (l : List String) (h : l.Nodup) : (sortStr l).Nodup :=
  ((sortBy_perm strLe l).nodup_iff).mpr h

theorem pyDedupAux_subset {α : Type} [DecidableEq α] (l : List α) :
    ∀ (seen : List α), ∀ x ∈ pyDedupAux seen l, x ∈ l := by
  induction l with
  | nil => intro seen x hx; simp [pyDedupAux] at hx
  | cons a as ih =>
    intro seen x hx
    rw [pyDedupAux] at hx
    by_cases hs : a ∈ seen
    · rw [if_pos hs] at hx
      exact List.mem_cons_of_mem a (ih seen x hx)
    · rw [if_neg hs] at hx
      rcases List.mem_cons.mp hx with h | h
      · exact h ▸ List.mem_cons_self a as
      · exact List.mem_cons_of_mem a (ih (a :: seen) x h)

theorem pyDedup_subset {α : Type} [DecidableEq α] (l : List α) :
    ∀ x ∈ pyDedup l, x ∈ l := pyDedupAux_subset l []

theorem dlookup_dinsert_self {K V : Type} [DecidableEq K] (k : K) (v : V) (m : List (K × V)) :
    dlookup k (dinsert k v m) = some v := by
  induction m with
  | nil => simp [dinsert, dlookup]
  | cons p rest ih =>
    by_cases h : p.1 = k
    · simp [dinsert, dlookup, h]
    · simp [dinsert, dlookup, h, ih]

theorem dlookup_dinsert_ne {K V : Type} [DecidableEq K] (k k2 : K) (v : V) (h : k2 ≠ k)
    (m : List (K × V)) : dlookup k2 (dinsert k v m) = dlookup k2 m := by
  have h2 : ¬ (k = k2) := fun he => h he.symm
  induction m with
  | nil => simp [dinsert, dlookup, h2]
  | cons p rest ih =>
    by_cases hp : p.1 = k
    · simp [dinsert, dlookup, hp, h2]
    · simp only [dinsert, hp, if_false]
      by_cases hq : p.1 = k2
      · simp [dlookup, hq]
      · simp [dlookup, hq, ih]

theorem mem_dinsert_elim {K V : Type} [DecidableEq K] (k : K) (v : V) (m : List (K × V))
    (p : K × V) (hp : p ∈ dinsert k v m) : p = (k, v) ∨ p ∈ m := by
  induction m with
  | nil => simpa [dinsert] using hp
  | cons q rest ih =>
    by_cases h : q.1 = k
    · simp only [dinsert, h, if_true] at hp
      rcases List.mem_cons.mp hp with h2 | h2
      · exact Or.inl h2
      · exact Or.inr (List.mem_cons_of_mem q h2)
    · simp only [dinsert, h, if_false] at hp
      rcases List.mem_cons.mp hp with h2 | h2
      · exact Or.inr (h2 ▸ List.mem_cons_self q rest)
      · rcases ih h2 with h3 | h3
        · exact Or.inl h3
        · exact Or.inr (List.mem_cons_of_mem q h3)

theorem keys_dinsert_mem {K V : Type} [DecidableEq K] (k a : K) (v : V) (m : List (K × V)) :
    a ∈ (dinsert k v m).map Prod.fst ↔ a = k ∨ a ∈ m.map Prod.fst := by
  induction m with
  | nil => simp [dinsert]
  | cons p rest ih =>
    by_cases h : p.1 = k
    · simp only [dinsert, h, if_true, List.map_cons, List.mem_cons]
      constructor
      · intro h2
        rcases h2 with h2 | h2
        · exact Or.inl h2
        · exact Or.inr (Or.inr h2)
      · intro h2
        rcases h2 with h2 | h2 | h2
        · exact Or.inl h2
        · exact Or.inl (h ▸ h2)
        · exact Or.inr h2
    · simp only [dinsert, h, if_false, List.map_cons, List.mem_cons, ih]
      tauto

theorem keys_dinsert_nodup {K V : Type} [DecidableEq K] (k : K) (v : V) (m : List (K × V))
    (h : (m.map Prod.fst).Nodup) : ((dinsert k v m).map Prod.fst).Nodup := by
  induction m with
  | nil => simp [dinsert]
  | cons p rest ih =>
    simp only [List.map_cons, List.nodup_cons] at h
    by_cases hp : p.1 = k
    · simp only [dinsert, hp, if_true, List.map_cons, List.nodup_cons]
      exact ⟨hp ▸ h.1, h.2⟩
    · simp only [dinsert, hp, if_false, List.map_cons, List.nodup_cons]
      refine ⟨?_, ih h.2⟩
      intro hmem
      rcases (keys_dinsert_mem k p.1 v rest).mp hmem with h2 | h2
      · exact hp h2
      · exact h.1 h2

theorem dlookup_none_iff {K V : Type} [DecidableEq K] (k : K) (m : List (K × V)) :
    dlookup k m = none ↔ k ∉ m.map Prod.fst := by
  induction m with
  | nil => simp [dlookup]
  | cons p rest ih =>
    by_cases h : p.1 = k
    · simp [dlookup, h]
    · simp only [dlookup, h, if_false, List.map_cons, List.mem_cons, ih]
      constructor
      · intro h2 h3
        rcases h3 with h3 | h3
        · exact h h3.symm
        · exact h2 h3
      · intro h2 h3
        exact h2 (Or.inr h3)

theorem dlookup_mem {K V : Type} [DecidableEq K] (k : K) (v : V) (m : List (K × V))
    (h : dlookup k m = some v) : (k, v) ∈ m := by
  induction m with
  | nil => simp [dlookup] at h
  | cons p rest ih =>
    by_cases hp : p.1 = k
    · simp only [dlookup, hp, if_true, Option.some.injEq] at h
      have : p = (k, v) := Prod.ext hp h
      exact this ▸ List.mem_cons_self p rest
    · simp only [dlookup, hp, if_false] at h
      exact List.mem_cons_of_mem p (ih h)

theorem dlookup_of_mem_nodup {K V : Type} [DecidableEq K] (k : K) (v : V) (m : List (K × V))
    (hn : (m.map Prod.fst).Nodup) (h : (k, v) ∈ m) : dlookup k m = some v := by
  induction m with
  | nil => simp at h
  | cons p rest ih =>
    simp only [List.map_cons, List.nodup_cons] at hn
    rcases List.mem_cons.mp h with h1 | h1
    · simp [dlookup, ← h1]
    · have hk : p.1 ≠ k := by
        intro he
        exact hn.1 (he ▸ (List.mem_map.mpr ⟨(k, v), h1, rfl⟩))
      simp [dlookup, hk, ih hn.2 h1]

theorem dmodify_keys {K V : Type} [DecidableEq K] (k : K) (f : V → V) (m : List (K × V)) :
    (dmodify k f m).map Prod.fst = m.map Prod.fst := by
  induction m with
  | nil => rfl
  | cons p rest ih =>
    by_cases h : p.1 = k
    · simp [dmodify, h]
    · simp [dmodify, h, ih]

theorem dlookup_dmodify_self {K V : Type} [DecidableEq K] (k : K) (f : V → V)
    (m : List (K × V)) : dlookup k (dmodify k f m) = (dlookup k m).map f := by
  induction m with
  | nil => rfl
  | cons p rest ih =>
    by_cases h : p.1 = k
    · simp [dmodify, dlookup, h]
    · simp [dmodify, dlookup, h, ih]

theorem dlookup_dmodify_ne {K V : Type} [DecidableEq K] (k k2 : K) (f : V → V) (h : k2 ≠ k)
    (m : List (K × V)) : dlookup k2 (dmodify k f m) = dlookup k2 m := by
  have h2 : ¬ (k = k2) := fun he => h he.symm
  induction m with
  | nil => rfl
  | cons p rest ih =>
    by_cases hp : p.1 = k
    · simp [dmodify, dlookup, hp, h2]
    · by_cases hq : p.1 = k2
      · simp [dmodify, dlookup, hp, hq, h]
      · simp [dmodify, dlookup, hp, hq, ih]

theorem mem_dmodify_elim {K V : Type} [DecidableEq K] (k : K) (f : V → V) (m : List (K × V))
    (p : K × V) (hp : p ∈ dmodify k f m) : p ∈ m ∨ ∃ v, (p.1, v) ∈ m ∧ p = (p.1, f v) := by
  induction m with
  | nil => simp [dmodify] at hp
  | cons q rest ih =>
    by_cases h : q.1 = k
    · simp only [dmodify, h, if_true] at hp
      rcases List.mem_cons.mp hp with h2 | h2
      · refine Or.inr ⟨q.2, ?_, ?_⟩
        · have hpq : p.1 = q.1 := by rw [h2]; exact h.symm
          rw [hpq]
          exact List.mem_cons_self q rest
        · rw [h2]
      · exact Or.inl (List.mem_cons_of_mem q h2)
    · simp only [dmodify, h, if_false] at hp
      rcases List.mem_cons.mp hp with h2 | h2
      · exact Or.inl (h2 ▸ List.mem_cons_self q rest)
      · rcases ih h2 with h3 | ⟨v, hv, he⟩
        · exact Or.inl (List.mem_cons_of_mem q h3)
        · exact Or.inr ⟨v, List.mem_cons_of_mem q hv, he⟩

theorem strToList_append (a b : String) : (a ++ b).toList = a.toList ++ b.toList :=
  String.data_append a b

theorem pyStartswith_iff (s p : String) :
    pyStartswith s p = true ↔ p.toList <+: s.toList := by
  simp [pyStartswith, List.isPrefixOf_iff_prefix]

theorem pyStartswith_append (a b p : String) (h : pyStartswith a p = true) :
    pyStartswith (a ++ b) p = true := by
  rw [pyStartswith_iff] at h ⊢
  rw [strToList_append]
  exact h.trans (List.prefix_append a.toList b.toList)

theorem pyStartswith_head (s p : String) (c : Char) (cp : List Char)
    (h : pyStartswith s p = true) (hp : p.toList = c :: cp) :
    ∃ t, s.toList = c :: t := by
  rw [pyStartswith_iff, hp] at h
  rcases h with ⟨u, hu⟩
  exact ⟨cp ++ u, by simpa using hu.symm⟩

theorem slash_not_project (s : String) (h : pyStartswith s "/" = true) :
    pyStartswith s (PROJECT_TOKEN ++ "/") = false := by
  by_contra hc
  have h2 : pyStartswith s (PROJECT_TOKEN ++ "/") = true := by
    cases he : pyStartswith s (PROJECT_TOKEN ++ "/")
    · exact absurd he hc
    · rfl
  rcases pyStartswith_head s "/" '/' [] h rfl with ⟨t, ht⟩
  rcases pyStartswith_head s (PROJECT_TOKEN ++ "/") 'P' ("ROJECT/".toList) h2 rfl with ⟨t2, ht2⟩
  rw [ht] at ht2
  simp at ht2

theorem rsplitColon_none (l : List Char) (h : rsplitColon l = none) : ':' ∉ l := by
  induction l with
  | nil => simp
  | cons c cs ih =>
    rw [rsplitColon] at h
    cases hr : rsplitColon cs with
    | some q => rw [hr] at h; simp at h
    | none =>
      rw [hr] at h
      by_cases hc : c = ':'
      · simp [hc] at h
      · intro hmem
        rcases List.mem_cons.mp hmem with h4 | h4
        · exact hc h4.symm
        · exact ih hr h4

theorem rsplitColon_some (l : List Char) (p : List Char × List Char)
    (h : rsplitColon l = some p) : l = p.1 ++ ':' :: p.2 ∧ ':' ∉ p.2 := by
  induction l generalizing p with
  | nil => simp [rsplitColon] at h
  | cons c cs ih =>
    rw [rsplitColon] at h
    cases hr : rsplitColon cs with
    | some q =>
      rw [hr] at h
      rcases ih q hr with ⟨he, hn⟩
      simp only [Option.some.injEq] at h
      subst h
      exact ⟨by rw [he]; rfl, hn⟩
    | none =>
      rw [hr] at h
      by_cases hc : c = ':'
      · simp only [hc, if_true, Option.some.injEq] at h
        subst h
        exact ⟨by simp [hc], rsplitColon_none cs hr⟩
      · simp [hc] at h

theorem colon_decomp_unique (a : List Char) :
    ∀ (c b d : List Char), ':' ∉ b → ':' ∉ d → a ++ ':' :: b = c ++ ':' :: d →
      a = c ∧ b = d := by
  induction a with
  | nil =>
    intro c b d hb hd he
    cases c with
    | nil => simpa using he
    | cons x cs =>
      simp only [List.nil_append, List.cons_append, List.cons.injEq] at he
      exact absurd (he.2 ▸ (List.mem_append.mpr (Or.inr (List.mem_cons_self ':' d))))
        (he.1 ▸ hb)
  | cons x as ih =>
    intro c b d hb hd he
    cases c with
    | nil =>
      simp only [List.nil_append, List.cons_append, List.cons.injEq] at he
      exact absurd (he.2.symm ▸ (List.mem_append.mpr (Or.inr (List.mem_cons_self ':' b))))
        (he.1 ▸ hd)
    | cons y cs =>
      simp only [List.cons_append, List.cons.injEq] at he
      rcases ih cs b d hb hd he.2 with ⟨h1, h2⟩
      exact ⟨by rw [he.1, h1], h2⟩

theorem fromFirstUsr_prefix (l suf : List Char) (h : fromFirstUsr l = some suf) :
    ("/usr/".toList) <+: suf := by
  induction l with
  | nil => simp [fromFirstUsr] at h
  | cons c cs ih =>
    rw [fromFirstUsr] at h
    by_cases hp : ("/usr/".toList).isPrefixOf (c :: cs) = true
    · simp only [hp, if_true, Option.some.injEq] at h
      exact h ▸ (List.isPrefixOf_iff_prefix.mp hp)
    · simp only [hp, if_false] at h
      exact ih h

theorem normalize_external_keeps_slash (resolveRel : String → String) (f : String)
    (h : pyStartswith f "/" = true) :
    pyStartswith (normalize_external_path resolveRel f) "/" = true := by
  unfold normalize_external_path
  cases hu : fromFirstUsr f.toList with
  | some suf =>
    have hpre := fromFirstUsr_prefix f.toList suf hu
    rw [pyStartswith_iff]
    have h1 : ("/".toList) <+: ("/usr/".toList) := by decide
    exact h1.trans hpre
  | none => simp [h]

theorem map_eq_self_iff {α : Type} (f : α → α) (l : List α) :
    l.map f = l ↔ ∀ x ∈ l, f x = x := by
  induction l with
  | nil => simp
  | cons x xs ih => simp [ih]

theorem indexOf_append_left {α : Type} [DecidableEq α] (a : α) (l t : List α) (h : a ∈ l) :
    List.indexOf a (l ++ t) = List.indexOf a l := by
  induction l with
  | nil => simp at h
  | cons x xs ih =>
    by_cases hx : x = a
    · simp [List.indexOf_cons, hx]
    · rcases List.mem_cons.mp h with h2 | h2
      · exact absurd h2.symm hx
      · simp [List.indexOf_cons, hx, beq_iff_eq, ih h2]

theorem indexOf_append_not_mem {α : Type} [DecidableEq α] (a : α) (l t : List α)
    (h : a ∉ l) : List.indexOf a (l ++ t) = l.length + List.indexOf a t := by
  induction l with
  | nil => simp
  | cons x xs ih =>
    have hx : x ≠ a := fun he => h (he ▸ List.mem_cons_self x xs)
    have h2 : a ∉ xs := fun hm => h (List.mem_cons_of_mem x hm)
    simp [List.indexOf_cons, hx, beq_iff_eq, ih h2]
    omega

theorem indexOf_reverse_nodup {α : Type} [DecidableEq α] (l : List α) (hn : l.Nodup)
    (a : α) (ha : a ∈ l) :
    List.indexOf a l.reverse = l.length - 1 - List.indexOf a l := by
  induction l with
  | nil => simp at ha
  | cons x xs ih =>
    simp only [List.nodup_cons] at hn
    by_cases hx : x = a
    · subst hx
      have hnr : x ∉ xs.reverse := fun hm => hn.1 (List.mem_reverse.mp hm)
      simp only [List.reverse_cons]
      rw [indexOf_append_not_mem x xs.reverse [x] hnr]
      simp [List.indexOf_cons]
    · rcases List.mem_cons.mp ha with h2 | h2
      · exact absurd h2.symm hx
      · have hr : a ∈ xs.reverse := List.mem_reverse.mpr h2
        simp only [List.reverse_cons]
        rw [indexOf_append_left a xs.reverse [x] hr]
        rw [ih hn.2 h2]
        have hlt : List.indexOf a xs < xs.length := List.indexOf_lt_length.mpr h2
        simp [List.indexOf_cons, hx, beq_iff_eq]
        omega

theorem indexOf_reverse_flip {α : Type} [DecidableEq α] (l : List α) (hn : l.Nodup)
    (a b : α) (ha : a ∈ l) (hb : b ∈ l)
    (h : List.indexOf a l < List.indexOf b l) :
    List.indexOf b l.reverse < List.indexOf a l.reverse := by
  rw [indexOf_reverse_nodup l hn a ha, indexOf_reverse_nodup l hn b hb]
  have h1 : List.indexOf a l < l.length := List.indexOf_lt_length.mpr ha
  have h2 : List.indexOf b l < l.length := List.indexOf_lt_length.mpr hb
  omega

theorem foldlM_ok_inv {α β : Type} {P : β → Prop} (f : β → α → Except Unit β)
    (hf : ∀ b a b2, P b → f b a = .ok b2 → P b2) (l : List α) :
    ∀ b b2, P b → l.foldlM f b = .ok b2 → P b2 := by
  induction l with
  | nil =>
    intro b b2 hP h
    rw [List.foldlM_nil] at h
    cases h
    exact hP
  | cons a as ih =>
    intro b b2 hP h
    rw [List.foldlM_cons] at h
    cases hfa : f b a with
    | error e => rw [hfa] at h; exact absurd h (by simp [Bind.bind, Except.bind])
    | ok b1 =>
      rw [hfa] at h
      have h2 : as.foldlM f b1 = .ok b2 := h
      exact ih b1 b2 (hf b a b1 hP hfa) h2

theorem mapM_ok_mem {α β : Type} (f : α → Except Unit β) (l : List α) :
    ∀ out, l.mapM f = .ok out → ∀ y ∈ out, ∃ x ∈ l, f x = .ok y := by
  induction l with
  | nil =>
    intro out h y hy
    rw [List.mapM_nil] at h
    cases h
    simp at hy
  | cons a as ih =>
    intro out h y hy
    rw [List.mapM_cons] at h
    cases hfa : f a with
    | error e => rw [hfa] at h; exact absurd h (by simp [Bind.bind, Except.bind])
    | ok b1 =>
      rw [hfa] at h
      cases hrest : as.mapM f with
      | error e =>
        rw [hrest] at h
        exact absurd h (by simp [Bind.bind, Except.bind])
      | ok bs =>
        rw [hrest] at h
        have h2 : Except.ok (ε := Unit) (b1 :: bs) = Except.ok out := h
        cases h2
        rcases List.mem_cons.mp hy with h3 | h3
        · exact ⟨a, List.mem_cons_self a as, h3 ▸ hfa⟩
        · rcases ih bs hrest y h3 with ⟨x, hx, hfx⟩
          exact ⟨x, List.mem_cons_of_mem a hx, hfx⟩

/-! ### Claim C8: totality and case behavior of normalize_path. -/

theorem pathParents_or_eq_iff (root comps : List String) :
    (root ∈ pathParents comps ∨ comps = root) ↔ root <+: comps := by
  constructor
  · intro h
    rcases h with h | h
    · simp only [pathParents, List.mem_reverse, List.mem_map, List.mem_range] at h
      rcases h with ⟨i, _, hi⟩
      exact hi ▸ List.take_prefix i comps
    · exact h ▸ List.prefix_refl comps
  · intro h
    have hlen : root.length ≤ comps.length := h.length_le
    have htake : root = comps.take root.length := List.prefix_iff_eq_take.mp h
    by_cases he : root.length = comps.length
    · right
      rw [htake, he, List.take_length]
    · left
      simp only [pathParents, List.mem_reverse, List.mem_map, List.mem_range]
      exact ⟨root.length, lt_of_le_of_ne hlen he, htake.symm⟩

/-- C8 (confirmed): path normalization is total and never raises: when
resolution succeeds and the resolved path has the repo root as a prefix
(pathlib reports this as the root being the path itself or one of its
parents), the result is the project token, a slash, and the POSIX-style
relative path; any other resolved path, and any path-resolution failure,
returns the input unchanged. -/
theorem c8_normalize_path_spec (resolve : String → Option (List String))
    (abs_path : String) (repo_root : List String) :
    (resolve abs_path = none → normalize_path resolve abs_path repo_root = abs_path) ∧
    (∀ comps, resolve abs_path = some comps →
      (repo_root <+: comps →
        normalize_path resolve abs_path repo_root =
          PROJECT_ROOT_TOKEN ++ "/" ++ posixRelTo repo_root comps) ∧
      (¬ repo_root <+: comps → normalize_path resolve abs_path repo_root = abs_path)) := by
  refine ⟨fun h => by simp [normalize_path, h], fun comps hc => ⟨fun hpre => ?_, fun hnpre => ?_⟩⟩
  · have := (pathParents_or_eq_iff repo_root comps).mpr hpre
    simp [normalize_path, hc, this]
  · have : ¬ (repo_root ∈ pathParents comps ∨ comps = repo_root) :=
      fun h => hnpre ((pathParents_or_eq_iff repo_root comps).mp h)
    simp only [normalize_path, hc]
    rw [if_neg this]

/-- C8 witness: a resolved descendant of the repo root is rewritten to the
project-token form, and a resolution failure returns the input unchanged. -/
theorem c8_witness :
    normalize_path (fun _ => some ["r", "sub", "f.py"]) "/r/sub/f.py" ["r"] =
      PROJECT_ROOT_TOKEN ++ "/" ++ posixRelTo ["r"] ["r", "sub", "f.py"] ∧
    normalize_path (fun _ => none) "/elsewhere/g.py" ["r"] = "/elsewhere/g.py" :=
  ⟨((c8_normalize_path_spec (fun _ => some ["r", "sub", "f.py"]) "/r/sub/f.py" ["r"]).2
      ["r", "sub", "f.py"] rfl).1 ⟨["sub", "f.py"], rfl⟩,
   (c8_normalize_path_spec (fun _ => none) "/elsewhere/g.py" ["r"]).1 rfl⟩

/-! ### Claim C5: the pruning stage is not pure — prune_hover mutates the
hover dicts of its input in place. -/

theorem popRange_eq_self_iff (v : J) :
    popRange v = v ↔ (match v with
      | J.jobj fs => fs.all (fun p => p.1 ≠ "range") = true
      | _ => True) := by
  cases v with
  | jobj fs => simp [popRange, List.filter_eq_self, List.all_eq_true]
  | null => simp [popRange]
  | jbool b => simp [popRange]
  | jnum n => simp [popRange]
  | jstr s => simp [popRange]
  | jarr xs => simp [popRange]

theorem prune_hover_eq_self_iff (v : J) :
    prune_hover v = v ↔ hoverRangeFree v = true := by
  cases v with
  | jarr xs =>
    simp only [prune_hover, J.jarr.injEq, hoverRangeFree, List.all_eq_true]
    rw [map_eq_self_iff]
    constructor
    · intro h x hx
      have h2 := (popRange_eq_self_iff x).mp (h x hx)
      cases x with
      | jobj fs2 => simpa using h2
      | jarr ys => rfl
      | null => rfl
      | jbool b => rfl
      | jnum n => rfl
      | jstr s => rfl
    · intro h x hx
      refine (popRange_eq_self_iff x).mpr ?_
      have h2 := h x hx
      cases x with
      | jobj fs2 => simpa using h2
      | jarr ys => trivial
      | null => trivial
      | jbool b => trivial
      | jnum n => trivial
      | jstr s => trivial
  | jobj fs => simp [prune_hover, hoverRangeFree, List.filter_eq_self, List.all_eq_true]
  | null => simp [prune_hover, hoverRangeFree]
  | jbool b => simp [prune_hover, hoverRangeFree]
  | jnum n => simp [prune_hover, hoverRangeFree]
  | jstr s => simp [prune_hover, hoverRangeFree]

/-- C5 amended: the pruning stage mutates its input exactly through
prune_hover: the input symbol table after the stage equals the table before
it if and only if no hover dict of any symbol carries a range key.  In
particular the input is left unmodified only in that case, not always. -/
theorem c5_stage_post_eq_iff (syms : List (List (String × J))) :
    stage_post syms = syms ↔ stageRangeFree syms = true := by
  unfold stage_post stageRangeFree
  rw [map_eq_self_iff]
  simp only [List.all_eq_true]
  constructor
  · intro h fields hf
    have h2 := h fields hf
    unfold symbol_post at h2
    rw [map_eq_self_iff] at h2
    intro p hp
    have h3 := h2 p hp
    by_cases hk : p.1 = "hover"
    · simp only [hk, if_true] at h3
      have h4 : prune_hover p.2 = p.2 := by
        have := congrArg Prod.snd h3
        simpa using this
      simp [hk, (prune_hover_eq_self_iff p.2).mp h4]
    · simp [hk]
  · intro h fields hf
    unfold symbol_post
    rw [map_eq_self_iff]
    intro p hp
    by_cases hk : p.1 = "hover"
    · simp only [hk, if_true]
      have h2 := h fields hf p hp
      simp only [hk] at h2
      simp only [Bool.or_eq_true, decide_eq_true_eq] at h2
      rcases h2 with h2 | h2
      · exact absurd rfl h2
      · rw [Prod.ext_iff]
        exact ⟨by simp [hk], by simpa using (prune_hover_eq_self_iff p.2).mpr h2⟩
    · simp [hk]

/-- C5 counterexample: one symbol whose hover dict holds a range key; after
the pruning stage the input document has lost that key, so the stage did not
leave its input unmodified. -/
theorem c5_counterexample :
    stage_post [[("hover", J.jobj [("range", J.jnum 1), ("contents", J.jstr "h")])]] ≠
      [[("hover", J.jobj [("range", J.jnum 1), ("contents", J.jstr "h")])]] := by
  intro h
  have h2 := (c5_stage_post_eq_iff
    [[("hover", J.jobj [("range", J.jnum 1), ("contents", J.jstr "h")])]]).mp h
  simp [stageRangeFree, hoverRangeFree] at h2

theorem except_bind_ok {α β : Type} (x : Except Unit α) (k : α → Except Unit β) (b : β)
    (h : (x >>= k) = .ok b) : ∃ a, x = .ok a ∧ k a = .ok b := by
  cases x with
  | error e => exact absurd h (by simp [Bind.bind, Except.bind])
  | ok a => exact ⟨a, rfl, h⟩

/-! ### Claim C10: behavior of pos_in_range on malformed ranges and the
candidate filter of find_enclosing_symbol. -/

/-- C10 amended: pos_in_range returns False for every position when the
range is not a dict, and when both start and end are missing or falsy; when
only the start (resp. only the end) is missing or falsy it still never
returns True for positions with line below 10^9 (resp. line nonnegative) —
only positions outside that band can fall inside such a range — and
find_enclosing_symbol only returns a symbol whose range contains the
position, so a symbol with an absent, falsy, or non-dict range is never
selected at such positions. -/
theorem c10_pos_in_range_malformed :
    (∀ (line ch : Int) (rng : J), (∀ fs, rng ≠ J.jobj fs) →
      pos_in_range line ch rng = .ok false) ∧
    (∀ (line ch : Int) (fs : List (String × J)),
      (jget (J.jobj fs) "start").truthy = false →
      (jget (J.jobj fs) "end").truthy = false →
      pos_in_range line ch (J.jobj fs) = .ok false) ∧
    (∀ (line ch : Int) (fs : List (String × J)),
      (jget (J.jobj fs) "start").truthy = false → line < 10 ^ 9 →
      pos_in_range line ch (J.jobj fs) ≠ .ok true) ∧
    (∀ (line ch : Int) (fs : List (String × J)),
      (jget (J.jobj fs) "end").truthy = false → 0 ≤ line →
      pos_in_range line ch (J.jobj fs) ≠ .ok true) ∧
    (∀ (symbols : List BSym) (line ch : Int) (s : BSym),
      find_enclosing_symbol symbols line ch = .ok (some s) →
      pos_in_range line ch (jor s.range (J.jobj [])) = .ok true) := by
  refine ⟨?_, ?_, ?_, ?_, ?_⟩
  · intro line ch rng h
    cases rng with
    | jobj fs => exact absurd rfl (h fs)
    | null => rfl
    | jbool b => rfl
    | jnum n => rfl
    | jstr s => rfl
    | jarr xs => rfl
  · intro line ch fs hs he
    have hor : line < 10 ^ 9 ∨ line > -1 := by omega
    simp only [pos_in_range, jor, hs, he, Bool.false_eq_true, if_false, jgetE, dlookup,
      Option.getD, jToInt, Bind.bind, Except.bind, hor, if_true]
    rfl
  · intro line ch fs hs hline heq
    simp only [pos_in_range, jor, hs, Bool.false_eq_true, if_false] at heq
    rw [show jgetE (J.jobj ([] : List (String × J))) "line" (J.jnum (10 ^ 9)) =
      .ok (J.jnum (10 ^ 9)) from rfl] at heq
    rw [show jgetE (J.jobj ([] : List (String × J))) "character" (J.jnum (10 ^ 9)) =
      .ok (J.jnum (10 ^ 9)) from rfl] at heq
    simp only [Bind.bind, Except.bind, jToInt] at heq
    rcases except_bind_ok _ _ _ (by exact heq) with ⟨elJ, h1, heq2⟩
    rcases except_bind_ok _ _ _ heq2 with ⟨el, h2, heq3⟩
    rcases except_bind_ok _ _ _ heq3 with ⟨ecJ, h3, heq4⟩
    rcases except_bind_ok _ _ _ heq4 with ⟨ec, h4, heq5⟩
    have hor : line < 10 ^ 9 ∨ line > el := Or.inl hline
    simp only [hor, if_true] at heq5
    simp [pure, Except.pure] at heq5
  · intro line ch fs he hline heq
    simp only [pos_in_range, jor, he, Bool.false_eq_true, if_false] at heq
    simp only [Bind.bind, Except.bind] at heq
    rcases except_bind_ok _ _ _ (by exact heq) with ⟨slJ, h1, heq2⟩
    rcases except_bind_ok _ _ _ heq2 with ⟨sl, h2, heq3⟩
    rcases except_bind_ok _ _ _ heq3 with ⟨scJ, h3, heq4⟩
    rcases except_bind_ok _ _ _ heq4 with ⟨sc, h4, heq5⟩
    rw [show jgetE (J.jobj ([] : List (String × J))) "line" (J.jnum (-1)) =
      .ok (J.jnum (-1)) from rfl] at heq5
    rw [show jgetE (J.jobj ([] : List (String × J))) "character" (J.jnum (-1)) =
      .ok (J.jnum (-1)) from rfl] at heq5
    simp only [Bind.bind, Except.bind, jToInt] at heq5
    have hor : line < sl ∨ line > -1 := Or.inr (by omega)
    simp only [hor, if_true] at heq5
    simp [pure, Except.pure] at heq5
  · intro symbols line ch s h
    unfold find_enclosing_symbol at h
    rcases except_bind_ok _ _ _ h with ⟨cands, hc, hrest⟩
    have hP : ∀ t ∈ cands, pos_in_range line ch (jor t.range (J.jobj [])) = .ok true := by
      have hstepinv : ∀ (acc : List BSym) (x : BSym) (acc2 : List BSym),
          (∀ t ∈ acc, pos_in_range line ch (jor t.range (J.jobj [])) = .ok true) →
          ((do
            let b ← pos_in_range line ch (jor x.range (J.jobj []))
            pure (if b = true then acc ++ [x] else acc)) : Except Unit (List BSym)) =
            .ok acc2 →
          ∀ t ∈ acc2, pos_in_range line ch (jor t.range (J.jobj [])) = .ok true := by
        intro acc x acc2 hPacc hstep
        rcases except_bind_ok _ _ _ hstep with ⟨b, hb, hpure⟩
        have hacc2 : (if b = true then acc ++ [x] else acc) = acc2 := by
          injection hpure
        subst hacc2
        by_cases hbv : b = true
        · simp only [hbv, if_true]
          intro t ht
          rcases List.mem_append.mp ht with h4 | h4
          · exact hPacc t h4
          · rcases List.mem_singleton.mp h4 with rfl
            exact hbv ▸ hb
        · simp only [hbv, if_false]
          exact hPacc
      exact foldlM_ok_inv _ hstepinv symbols [] cands
        (fun t ht => absurd ht (List.not_mem_nil t)) hc
    cases cands with
    | nil =>
      exfalso
      have h2 : (pure none : Except Unit (Option BSym)) = .ok (some s) := hrest
      simp [pure, Except.pure] at h2
    | cons c0 crest =>
      have hrest2 : ((do
          let keyed ← (c0 :: crest).mapM (fun t => do
            let k ← sortKeyPy t
            pure (k, t))
          (match sortBy (fun a b => pairLeInt a.1 b.1) keyed with
           | best :: _ => pure (some best.2)
           | [] => pure none)) : Except Unit (Option BSym)) = .ok (some s) := hrest
      rcases except_bind_ok _ _ _ hrest2 with ⟨keyed, hk, hrest3⟩
      cases hsorted : sortBy (fun a b => pairLeInt a.1 b.1) keyed with
      | nil =>
        rw [hsorted] at hrest3
        have h2 : (pure none : Except Unit (Option BSym)) = .ok (some s) := hrest3
        simp [pure, Except.pure] at h2
      | cons best brest =>
        rw [hsorted] at hrest3
        have h2 : (pure (some best.2) : Except Unit (Option BSym)) = .ok (some s) := hrest3
        have hbs : best.2 = s := by
          simp only [pure, Except.pure, Except.ok.injEq, Option.some.injEq] at h2
          exact h2
        have hbest : best ∈ sortBy (fun a b => pairLeInt a.1 b.1) keyed := by
          rw [hsorted]; exact List.mem_cons_self best brest
        have hbk : best ∈ keyed := (sortBy_mem _ keyed best).mp hbest
        rcases mapM_ok_mem _ (c0 :: crest) keyed hk best hbk with ⟨x, hx, hfx⟩
        rcases except_bind_ok _ _ _ hfx with ⟨k0, hk0, hpure⟩
        have hxb : (k0, x) = best := by injection hpure
        have hsx : s = x := by
          rw [← hbs, ← hxb]
        rw [hsx]
        exact hP x hx

/-- C10 counterexample: a range whose start field is absent is not rejected
at every position — the position (10^9, 10^9) lies inside it — refuting the
claim that pos_in_range returns False for every position whenever a
start/end field is missing. -/
theorem c10_counterexample :
    pos_in_range (10 ^ 9) (10 ^ 9)
      (J.jobj [("end", J.jobj [("line", J.jnum (10 ^ 9)),
        ("character", J.jnum (10 ^ 9 + 1))])]) = .ok true ∧
    jget (J.jobj [("end", J.jobj [("line", J.jnum (10 ^ 9)),
      ("character", J.jnum (10 ^ 9 + 1))])]) "start" = J.null := by
  exact ⟨rfl, rfl⟩

/-- C10 witness: the amended theorem applied at concrete malformed ranges. -/
theorem c10_witness :
    pos_in_range 3 4 (J.jstr "oops") = .ok false ∧
    pos_in_range 3 4 (J.jobj [("x", J.jnum 1)]) = .ok false ∧
    pos_in_range 3 4 (J.jobj [("end", J.jobj [("line", J.jnum 9)])]) ≠ .ok true ∧
    pos_in_range 3 4 (J.jobj [("start", J.jobj [("line", J.jnum 0)])]) ≠ .ok true :=
  ⟨c10_pos_in_range_malformed.1 3 4 _ (fun fs h => J.noConfusion h),
   c10_pos_in_range_malformed.2.1 3 4 _ rfl rfl,
   c10_pos_in_range_malformed.2.2.1 3 4 _ rfl (by norm_num),
   c10_pos_in_range_malformed.2.2.2.1 3 4 _ rfl (by norm_num)⟩

/-! ### Graph integrator: invariants of build_indices and of the edge loop. -/

theorem foldl_inv_mem {α β : Type} {P : β → Prop} (l : List α) (f : β → α → β)
    (h : ∀ b a, a ∈ l → P b → P (f b a)) : ∀ b, P b → P (l.foldl f b) := by
  induction l with
  | nil => intro b hb; simpa using hb
  | cons a as ih =>
    intro b hb
    rw [List.foldl_cons]
    exact ih (fun b2 a2 ha2 hb2 => h b2 a2 (List.mem_cons_of_mem a ha2) hb2)
      (f b a) (h b a (List.mem_cons_self a as) hb)

theorem pyStartswith_refl (s : String) : pyStartswith s s = true := by
  rw [pyStartswith_iff]

/-- Invariants of build_indices: by_id has pairwise distinct keys, each
stored symbol carries its key as id, starts with empty calls and calledBy,
and every id stored in by_file_name is a key of by_id. -/
theorem build_indices_inv (pruned : Pruned) :
    ((build_indices pruned).1.map Prod.fst).Nodup ∧
    (∀ p ∈ (build_indices pruned).1, p.2.id = p.1 ∧ p.2.calls = [] ∧ p.2.calledBy = []) ∧
    (∀ q ∈ (build_indices pruned).2, q.2 ∈ (build_indices pruned).1.map Prod.fst) := by
  unfold build_indices
  refine @foldl_inv_mem PrunedSymbol
    (List (String × ISym) × List ((String × String) × String))
    (fun acc => (acc.1.map Prod.fst).Nodup ∧
       (∀ p ∈ acc.1, p.2.id = p.1 ∧ p.2.calls = [] ∧ p.2.calledBy = []) ∧
       (∀ q ∈ acc.2, q.2 ∈ acc.1.map Prod.fst))
    pruned.symbols _ ?_ ([], []) (by simp)
  intro b sym _ hb
  cases hid : compute_symbol_id sym with
  | none => simpa [hid] using hb
  | some sid =>
    simp only [hid]
    refine ⟨keys_dinsert_nodup sid _ b.1 hb.1, ?_, ?_⟩
    · intro p hp
      rcases mem_dinsert_elim sid _ b.1 p hp with h1 | h1
      · subst h1; exact ⟨rfl, rfl, rfl⟩
      · exact hb.2.1 p h1
    · intro q hq
      have base : ∀ q2 ∈ b.2, q2.2 ∈ (dinsert sid
          (⟨sid, sym.file, sym.name, sym.definitions, [], []⟩ : ISym) b.1).map Prod.fst := by
        intro q2 hq2
        exact (keys_dinsert_mem sid q2.2 _ b.1).mpr (Or.inr (hb.2.2 q2 hq2))
      cases hf : sym.file with
      | none => simp only [hf] at hq; rw [← hf]; exact base q hq
      | some fv =>
        cases hn : sym.name with
        | none => simp only [hf, hn] at hq; rw [← hf, ← hn]; exact base q hq
        | some nv =>
          simp only [hf, hn] at hq
          rw [← hf, ← hn]
          rcases mem_dinsert_elim (fv, nv) sid b.2 q hq with h1 | h1
          · subst h1
            exact (keys_dinsert_mem sid sid _ b.1).mpr (Or.inl rfl)
          · exact base q h1

theorem parse_name_colon_free (resolveRel : String → String) (ep f n : String)
    (h : parse_dep_endpoint resolveRel ep = (f, n)) : ':' ∉ n.toList := by
  unfold parse_dep_endpoint at h
  split at h
  · injection h with h1 h2
    rw [← h2]
    exact fun hm => absurd hm (List.not_mem_nil _)
  · rename_i p hr2
    have hn : n = String.mk p.2 := by
      by_cases hc : (listInfix "/usr/".toList (String.mk p.1).toList &&
          !pyStartswith (String.mk p.1) "/usr/") = true
      · simp only [hc, if_true] at h
        injection h with h1 h2
        exact h2.symm
      · simp only [hc, if_false] at h
        injection h with h1 h2
        exact h2.symm
    rw [hn]
    exact (rsplitColon_some ep.toList p hr2).2

/-- Case analysis of id_from_dep_endpoint: a resolved id is an id stored in
by_file_name, or carries the project-token prefix, or is the external id of
an endpoint whose file part is absolute. -/
theorem id_from_cases (resolveRel : String → String)
    (by_fn : List ((String × String) × String)) (ep i : String)
    (h : id_from_dep_endpoint resolveRel by_fn ep = some i) :
    (∃ fn, dlookup fn by_fn = some i) ∨
    pyStartswith i (PROJECT_TOKEN ++ "/") = true ∨
    (∃ f n, parse_dep_endpoint resolveRel ep = (f, n) ∧ n ≠ "" ∧
      pyStartswith f "/" = true ∧
      i = make_external_id (normalize_external_path resolveRel f) n) := by
  unfold id_from_dep_endpoint at h
  cases hp : parse_dep_endpoint resolveRel ep with
  | mk f n =>
    rw [hp] at h
    simp only at h
    by_cases hn : n = ""
    · rw [if_pos hn] at h
      exact absurd h (by simp)
    · rw [if_neg hn] at h
      by_cases hproj : pyStartswith f (PROJECT_TOKEN ++ "/") = true
      · rw [if_pos hproj] at h
        cases hl : dlookup (String.mk (f.toList.drop (PROJECT_TOKEN.length + 1)), n) by_fn with
        | some sid =>
          rw [hl] at h
          have hsid : sid = i := by injection h
          exact Or.inl ⟨_, hsid ▸ hl⟩
        | none =>
          rw [hl] at h
          have hi : f ++ ":" ++ n = i := by injection h
          refine Or.inr (Or.inl ?_)
          rw [← hi]
          exact pyStartswith_append _ n _ (pyStartswith_append f ":" _ hproj)
      · rw [if_neg hproj] at h
        by_cases hslash : pyStartswith f "/" = true
        · rw [if_neg (by simp [hslash])] at h
          have hi : make_external_id (normalize_external_path resolveRel f) n = i := by
            injection h
          exact Or.inr (Or.inr ⟨f, n, rfl, hn, hslash, hi.symm⟩)
        · have hfalse : pyStartswith f "/" = false := Bool.eq_false_iff.mpr hslash
          rw [if_pos (by simp [hfalse])] at h
          cases hl : dlookup (f, n) by_fn with
          | some sid =>
            rw [hl] at h
            have hsid : sid = i := by injection h
            exact Or.inl ⟨_, hsid ▸ hl⟩
          | none =>
            rw [hl] at h
            have hi : PROJECT_TOKEN ++ "/" ++ f ++ ":" ++ n = i := by injection h
            refine Or.inr (Or.inl ?_)
            rw [← hi]
            exact pyStartswith_append _ n _ (pyStartswith_append _ ":" _
              (pyStartswith_append (PROJECT_TOKEN ++ "/") f _
                (pyStartswith_refl (PROJECT_TOKEN ++ "/"))))

theorem keys_condmod {c : Prop} [Decidable c] {K V : Type} [DecidableEq K] (k : K)
    (g : V → V) (m : List (K × V)) :
    ((if c then dmodify k g m else m).map Prod.fst) = m.map Prod.fst := by
  by_cases h : c
  · simp [h, dmodify_keys]
  · simp [h]

theorem mem_condmod {c : Prop} [Decidable c] {K V : Type} [DecidableEq K] (k : K)
    (g : V → V) (m : List (K × V)) (p : K × V)
    (hp : p ∈ (if c then dmodify k g m else m)) :
    p ∈ m ∨ ∃ v, (p.1, v) ∈ m ∧ p = (p.1, g v) := by
  by_cases h : c
  · rw [if_pos h] at hp
    exact mem_dmodify_elim k g m p hp
  · rw [if_neg h] at hp
    exact Or.inl hp

theorem mem_condins {c : Prop} [Decidable c] {K V : Type} [DecidableEq K] (k : K)
    (v : V) (m : List (K × V)) (p : K × V)
    (hp : p ∈ (if c then dinsert k v m else m)) : p = (k, v) ∨ p ∈ m := by
  by_cases h : c
  · rw [if_pos h] at hp
    exact mem_dinsert_elim k v m p hp
  · rw [if_neg h] at hp
    exact Or.inr hp

theorem keys_condins_mono {c : Prop} [Decidable c] {K V : Type} [DecidableEq K] (k : K)
    (v : V) (m : List (K × V)) (a : K) (ha : a ∈ m.map Prod.fst) :
    a ∈ (if c then dinsert k v m else m).map Prod.fst := by
  by_cases h : c
  · rw [if_pos h]
    exact (keys_dinsert_mem k a v m).mpr (Or.inr ha)
  · rw [if_neg h]
    exact ha

theorem keys_condins_nodup {c : Prop} [Decidable c] {K V : Type} [DecidableEq K] (k : K)
    (v : V) (m : List (K × V)) (hn : (m.map Prod.fst).Nodup) :
    ((if c then dinsert k v m else m).map Prod.fst).Nodup := by
  by_cases h : c
  · rw [if_pos h]
    exact keys_dinsert_nodup k v m hn
  · rw [if_neg h]
    exact hn

/-- When the file part of an endpoint is absolute, id resolution necessarily
takes the external branch. -/
theorem id_from_absolute (resolveRel : String → String)
    (by_fn : List ((String × String) × String)) (ep i f n : String)
    (hp : parse_dep_endpoint resolveRel ep = (f, n))
    (hf : pyStartswith f "/" = true)
    (h : id_from_dep_endpoint resolveRel by_fn ep = some i) :
    i = make_external_id (normalize_external_path resolveRel f) n ∧ n ≠ "" := by
  unfold id_from_dep_endpoint at h
  rw [hp] at h
  simp only at h
  by_cases hn : n = ""
  · rw [if_pos hn] at h
    exact absurd h (by simp)
  · rw [if_neg hn] at h
    rw [if_neg (by rw [slash_not_project f hf]; simp)] at h
    rw [if_neg (by simp [hf])] at h
    refine ⟨?_, hn⟩
    injection h with h2
    exact h2.symm

theorem callsUpd_spec (v : ISym) (d : String) :
    ((if d ∈ v.calls then v else { v with calls := v.calls ++ [d] }) : ISym).id = v.id ∧
    (if d ∈ v.calls then v else { v with calls := v.calls ++ [d] }).file = v.file ∧
    (if d ∈ v.calls then v else { v with calls := v.calls ++ [d] }).name = v.name ∧
    (if d ∈ v.calls then v
      else { v with calls := v.calls ++ [d] }).definitions = v.definitions ∧
    (if d ∈ v.calls then v else { v with calls := v.calls ++ [d] }).calledBy = v.calledBy ∧
    (∀ x ∈ (if d ∈ v.calls then v else { v with calls := v.calls ++ [d] }).calls,
      x ∈ v.calls ∨ x = d) := by
  by_cases hc : d ∈ v.calls
  · simp [hc]
    exact fun x hx => Or.inl hx
  · simp [hc]

theorem calledByUpd_spec (v : ISym) (d : String) :
    ((if d ∈ v.calledBy then v
      else { v with calledBy := v.calledBy ++ [d] }) : ISym).id = v.id ∧
    (if d ∈ v.calledBy then v else { v with calledBy := v.calledBy ++ [d] }).file = v.file ∧
    (if d ∈ v.calledBy then v else { v with calledBy := v.calledBy ++ [d] }).name = v.name ∧
    (if d ∈ v.calledBy then v
      else { v with calledBy := v.calledBy ++ [d] }).definitions = v.definitions ∧
    (if d ∈ v.calledBy then v else { v with calledBy := v.calledBy ++ [d] }).calls = v.calls ∧
    (∀ x ∈ (if d ∈ v.calledBy then v
      else { v with calledBy := v.calledBy ++ [d] }).calledBy, x ∈ v.calledBy ∨ x = d) := by
  by_cases hc : d ∈ v.calledBy
  · simp [hc]
    exact fun x hx => Or.inl hx
  · simp [hc]

theorem attachCalls_keys (by_id : List (String × ISym)) (src_id dst_id : String) :
    (attachCalls by_id src_id dst_id).map Prod.fst = by_id.map Prod.fst := by
  unfold attachCalls
  exact keys_condmod _ _ _

theorem attachCalledBy_keys (by_id : List (String × ISym)) (src_id dst_id : String) :
    (attachCalledBy by_id src_id dst_id).map Prod.fst = by_id.map Prod.fst := by
  unfold attachCalledBy
  exact keys_condmod _ _ _

theorem attachCalls_mem (by_id : List (String × ISym)) (src_id dst_id : String)
    (p : String × ISym) (hp : p ∈ attachCalls by_id src_id dst_id) :
    p ∈ by_id ∨ ∃ v, (p.1, v) ∈ by_id ∧
      p = (p.1, if dst_id ∈ v.calls then v else { v with calls := v.calls ++ [dst_id] }) := by
  unfold attachCalls at hp
  exact mem_condmod _ _ _ p hp

theorem attachCalledBy_mem (by_id : List (String × ISym)) (src_id dst_id : String)
    (p : String × ISym) (hp : p ∈ attachCalledBy by_id src_id dst_id) :
    p ∈ by_id ∨ ∃ v, (p.1, v) ∈ by_id ∧
      p = (p.1, if src_id ∈ v.calledBy then v
        else { v with calledBy := v.calledBy ++ [src_id] }) := by
  unfold attachCalledBy at hp
  exact mem_condmod _ _ _ p hp

theorem registerExternal_keys_mono (resolveRel : String → String)
    (by_id : List (String × ISym)) (ext : List (String × ExternalSym)) (raw eid : String)
    (a : String) (ha : a ∈ ext.map Prod.fst) :
    a ∈ (registerExternal resolveRel by_id ext raw eid).map Prod.fst := by
  unfold registerExternal
  by_cases h1 : ((dlookup eid by_id).isNone && (dlookup eid ext).isNone) = true
  · rw [if_pos h1]
    by_cases h2 : pyStartswith (parse_dep_endpoint resolveRel raw).1 "/" = true
    · rw [if_pos h2]
      exact (keys_dinsert_mem eid a _ ext).mpr (Or.inr ha)
    · rw [if_neg h2]
      exact ha
  · rw [if_neg h1]
    exact ha

theorem registerExternal_mem (resolveRel : String → String)
    (by_id : List (String × ISym)) (ext : List (String × ExternalSym)) (raw eid : String)
    (p : String × ExternalSym) (hp : p ∈ registerExternal resolveRel by_id ext raw eid) :
    p = (eid, ⟨eid, normalize_external_path resolveRel (parse_dep_endpoint resolveRel raw).1,
      (parse_dep_endpoint resolveRel raw).2⟩) ∨ p ∈ ext := by
  unfold registerExternal at hp
  by_cases h1 : ((dlookup eid by_id).isNone && (dlookup eid ext).isNone) = true
  · rw [if_pos h1] at hp
    by_cases h2 : pyStartswith (parse_dep_endpoint resolveRel raw).1 "/" = true
    · rw [if_pos h2] at hp
      exact mem_dinsert_elim _ _ _ p hp
    · rw [if_neg h2] at hp
      exact Or.inr hp
  · rw [if_neg h1] at hp
    exact Or.inr hp

/-- An endpoint id that resolved is a project key, a project-token fallback,
or a key of the externals table after the registration step runs for it. -/
theorem endpoint_registered (resolveRel : String → String)
    (by_fn : List ((String × String) × String)) (keys0 : List String)
    (hfn : ∀ q ∈ by_fn, q.2 ∈ keys0)
    (m1 : List (String × ISym)) (hkeys : m1.map Prod.fst = keys0)
    (ext : List (String × ExternalSym)) (raw i : String)
    (hi : id_from_dep_endpoint resolveRel by_fn raw = some i) :
    i ∈ keys0 ∨ pyStartswith i (PROJECT_TOKEN ++ "/") = true ∨
    i ∈ (registerExternal resolveRel m1 ext raw i).map Prod.fst := by
  rcases id_from_cases resolveRel by_fn raw i hi with ⟨fn, hl⟩ | hpre | ⟨f, n, hp, hn, hf, hie⟩
  · exact Or.inl (hfn (fn, i) (dlookup_mem fn i by_fn hl))
  · exact Or.inr (Or.inl hpre)
  · by_cases hk : i ∈ keys0
    · exact Or.inl hk
    · refine Or.inr (Or.inr ?_)
      have hm1 : dlookup i m1 = none := (dlookup_none_iff i m1).mpr (hkeys ▸ hk)
      unfold registerExternal
      cases hce : dlookup i ext with
      | some v =>
        rw [if_neg (by simp [hce])]
        exact List.mem_map.mpr ⟨(i, v), dlookup_mem i v ext hce, rfl⟩
      | none =>
        rw [if_pos (by simp [hm1, hce])]
        rw [hp]
        rw [if_pos (by simpa using hf)]
        exact (keys_dinsert_mem i i _ ext).mpr (Or.inl rfl)

/-- One edge of the integration loop preserves the by_id keys, the
id-equals-key property of both tables, grows the externals keys, and
preserves the classification of every id stored in any calls or calledBy
list: a by_id key, an externals key, or a project-token-prefixed id. -/
theorem intEdge_classify_step (resolveRel : String → String)
    (by_fn : List ((String × String) × String)) (keys0 : List String)
    (hfn : ∀ q ∈ by_fn, q.2 ∈ keys0)
    (st : List (String × ISym) × List (String × ExternalSym)) (e : DepEdge)
    (hkeys : st.1.map Prod.fst = keys0)
    (hids : ∀ p ∈ st.1, p.2.id = p.1)
    (hexts : ∀ p ∈ st.2, p.2.id = p.1)
    (hclass : ∀ p ∈ st.1, ∀ x, (x ∈ p.2.calls ∨ x ∈ p.2.calledBy) →
      x ∈ keys0 ∨ x ∈ st.2.map Prod.fst ∨ pyStartswith x (PROJECT_TOKEN ++ "/") = true) :
    (integrateEdge resolveRel by_fn st e).1.map Prod.fst = keys0 ∧
    (∀ p ∈ (integrateEdge resolveRel by_fn st e).1, p.2.id = p.1) ∧
    (∀ p ∈ (integrateEdge resolveRel by_fn st e).2, p.2.id = p.1) ∧
    (∀ x, x ∈ st.2.map Prod.fst →
      x ∈ (integrateEdge resolveRel by_fn st e).2.map Prod.fst) ∧
    (∀ p ∈ (integrateEdge resolveRel by_fn st e).1, ∀ x,
      (x ∈ p.2.calls ∨ x ∈ p.2.calledBy) →
      x ∈ keys0 ∨ x ∈ (integrateEdge resolveRel by_fn st e).2.map Prod.fst ∨
        pyStartswith x (PROJECT_TOKEN ++ "/") = true) := by
  unfold integrateEdge
  cases hs : e.src with
  | none =>
    exact ⟨hkeys, hids, hexts, fun x hx => hx, fun p hp x hx => hclass p hp x hx⟩
  | some sraw =>
    cases hd : e.dst with
    | none =>
      exact ⟨hkeys, hids, hexts, fun x hx => hx, fun p hp x hx => hclass p hp x hx⟩
    | some draw =>
      simp only
      cases hsi : id_from_dep_endpoint resolveRel by_fn sraw with
      | none =>
        exact ⟨hkeys, hids, hexts, fun x hx => hx, fun p hp x hx => hclass p hp x hx⟩
      | some src_id =>
        cases hdi : id_from_dep_endpoint resolveRel by_fn draw with
        | none =>
          exact ⟨hkeys, hids, hexts, fun x hx => hx, fun p hp x hx => hclass p hp x hx⟩
        | some dst_id =>
          simp only
          have hmono1 : ∀ x, x ∈ st.2.map Prod.fst →
              x ∈ (registerExternal resolveRel st.1 st.2 sraw src_id).map Prod.fst :=
            fun x hx => registerExternal_keys_mono resolveRel st.1 st.2 sraw src_id x hx
          have hmono2 : ∀ x,
              x ∈ (registerExternal resolveRel st.1 st.2 sraw src_id).map Prod.fst →
              x ∈ (registerExternal resolveRel st.1
                (registerExternal resolveRel st.1 st.2 sraw src_id) draw dst_id).map
                  Prod.fst :=
            fun x hx => registerExternal_keys_mono resolveRel st.1 _ draw dst_id x hx
          have hsrc_class : src_id ∈ keys0 ∨
              src_id ∈ (registerExternal resolveRel st.1
                (registerExternal resolveRel st.1 st.2 sraw src_id) draw dst_id).map
                  Prod.fst ∨
              pyStartswith src_id (PROJECT_TOKEN ++ "/") = true := by
            rcases endpoint_registered resolveRel by_fn keys0 hfn st.1 hkeys st.2 sraw
              src_id hsi with h | h | h
            · exact Or.inl h
            · exact Or.inr (Or.inr h)
            · exact Or.inr (Or.inl (hmono2 src_id h))
          have hdst_class : dst_id ∈ keys0 ∨
              dst_id ∈ (registerExternal resolveRel st.1
                (registerExternal resolveRel st.1 st.2 sraw src_id) draw dst_id).map
                  Prod.fst ∨
              pyStartswith dst_id (PROJECT_TOKEN ++ "/") = true := by
            rcases endpoint_registered resolveRel by_fn keys0 hfn st.1 hkeys
              (registerExternal resolveRel st.1 st.2 sraw src_id) draw dst_id hdi with
              h | h | h
            · exact Or.inl h
            · exact Or.inr (Or.inr h)
            · exact Or.inr (Or.inl h)
          have hids1 : ∀ p ∈ attachCalls st.1 src_id dst_id, p.2.id = p.1 := by
            intro p hp
            rcases attachCalls_mem st.1 src_id dst_id p hp with h1 | ⟨v, hv, hpe⟩
            · exact hids p h1
            · rw [hpe]
              exact (callsUpd_spec v dst_id).1.trans (hids (p.1, v) hv)
          have hids2 : ∀ p ∈ attachCalledBy (attachCalls st.1 src_id dst_id) src_id dst_id,
              p.2.id = p.1 := by
            intro p hp
            rcases attachCalledBy_mem _ src_id dst_id p hp with h1 | ⟨v, hv, hpe⟩
            · exact hids1 p h1
            · rw [hpe]
              exact (calledByUpd_spec v src_id).1.trans (hids1 (p.1, v) hv)
          have hexts2 : ∀ p ∈ registerExternal resolveRel st.1
              (registerExternal resolveRel st.1 st.2 sraw src_id) draw dst_id,
              p.2.id = p.1 := by
            intro p hp
            rcases registerExternal_mem _ _ _ _ _ p hp with h1 | h1
            · rw [h1]
            · rcases registerExternal_mem _ _ _ _ _ p h1 with h2 | h2
              · rw [h2]
              · exact hexts p h2
          have hclass1 : ∀ p ∈ attachCalls st.1 src_id dst_id, ∀ x,
              (x ∈ p.2.calls ∨ x ∈ p.2.calledBy) →
              x ∈ keys0 ∨ x ∈ (registerExternal resolveRel st.1
                (registerExternal resolveRel st.1 st.2 sraw src_id) draw dst_id).map
                  Prod.fst ∨
                pyStartswith x (PROJECT_TOKEN ++ "/") = true := by
            intro p hp x hx
            have base : ∀ p2 ∈ st.1, ∀ y, (y ∈ (p2 : String × ISym).2.calls ∨
                y ∈ p2.2.calledBy) → y ∈ keys0 ∨
                y ∈ (registerExternal resolveRel st.1
                  (registerExternal resolveRel st.1 st.2 sraw src_id) draw dst_id).map
                    Prod.fst ∨
                pyStartswith y (PROJECT_TOKEN ++ "/") = true := by
              intro p2 hp2 y hy
              rcases hclass p2 hp2 y hy with h | h | h
              · exact Or.inl h
              · exact Or.inr (Or.inl (hmono2 y (hmono1 y h)))
              · exact Or.inr (Or.inr h)
            rcases attachCalls_mem st.1 src_id dst_id p hp with h1 | ⟨v, hv, hpe⟩
            · exact base p h1 x hx
            · rw [hpe] at hx
              rcases hx with hx | hx
              · rcases (callsUpd_spec v dst_id).2.2.2.2.2 x hx with h2 | h2
                · exact base (p.1, v) hv x (Or.inl h2)
                · exact h2 ▸ hdst_class
              · rw [(callsUpd_spec v dst_id).2.2.2.2.1] at hx
                exact base (p.1, v) hv x (Or.inr hx)
          have hclass2 : ∀ p ∈ attachCalledBy (attachCalls st.1 src_id dst_id) src_id dst_id,
              ∀ x, (x ∈ p.2.calls ∨ x ∈ p.2.calledBy) →
              x ∈ keys0 ∨ x ∈ (registerExternal resolveRel st.1
                (registerExternal resolveRel st.1 st.2 sraw src_id) draw dst_id).map
                  Prod.fst ∨
                pyStartswith x (PROJECT_TOKEN ++ "/") = true := by
            intro p hp x hx
            rcases attachCalledBy_mem _ src_id dst_id p hp with h1 | ⟨v, hv, hpe⟩
            · exact hclass1 p h1 x hx
            · rw [hpe] at hx
              rcases hx with hx | hx
              · rw [(calledByUpd_spec v src_id).2.2.2.2.1] at hx
                exact hclass1 (p.1, v) hv x (Or.inl hx)
              · rcases (calledByUpd_spec v src_id).2.2.2.2.2 x hx with h2 | h2
                · exact hclass1 (p.1, v) hv x (Or.inr h2)
                · exact h2 ▸ hsrc_class
          refine ⟨?_, hids2, hexts2, fun x hx => hmono2 x (hmono1 x hx), hclass2⟩
          rw [attachCalledBy_keys, attachCalls_keys]
          exact hkeys

theorem integrate_symbols_eq (resolveRel : String → String) (pruned : Pruned) (deps : Deps) :
    (integrate resolveRel pruned deps).symbols = sortBy (fun a b => strLe a.id b.id)
      (((deps.function_edges.foldl (integrateEdge resolveRel (build_indices pruned).2)
          ((build_indices pruned).1, [])).1.map Prod.snd).map
        (fun s => { s with calls := sortStr s.calls, calledBy := sortStr s.calledBy })) := rfl

theorem integrate_externals_eq (resolveRel : String → String) (pruned : Pruned) (deps : Deps) :
    (integrate resolveRel pruned deps).externals = sortBy (fun a b => strLe a.id b.id)
      ((deps.function_edges.foldl (integrateEdge resolveRel (build_indices pruned).2)
          ((build_indices pruned).1, [])).2.map Prod.snd) := rfl

/-- Invariant of the whole edge loop of integrate. -/
theorem integrate_fold_inv (resolveRel : String → String) (pruned : Pruned) (deps : Deps) :
    ((deps.function_edges.foldl (integrateEdge resolveRel (build_indices pruned).2)
        ((build_indices pruned).1, [])).1.map Prod.fst =
      (build_indices pruned).1.map Prod.fst) ∧
    (∀ p ∈ (deps.function_edges.foldl (integrateEdge resolveRel (build_indices pruned).2)
        ((build_indices pruned).1, [])).1, p.2.id = p.1) ∧
    (∀ p ∈ (deps.function_edges.foldl (integrateEdge resolveRel (build_indices pruned).2)
        ((build_indices pruned).1, [])).2, p.2.id = p.1) ∧
    (∀ p ∈ (deps.function_edges.foldl (integrateEdge resolveRel (build_indices pruned).2)
        ((build_indices pruned).1, [])).1, ∀ x,
      (x ∈ p.2.calls ∨ x ∈ p.2.calledBy) →
      x ∈ (build_indices pruned).1.map Prod.fst ∨
      x ∈ (deps.function_edges.foldl (integrateEdge resolveRel (build_indices pruned).2)
        ((build_indices pruned).1, [])).2.map Prod.fst ∨
      pyStartswith x (PROJECT_TOKEN ++ "/") = true) := by
  rcases build_indices_inv pruned with ⟨hnodup, hvals, hfn⟩
  refine @foldl_inv_mem DepEdge (List (String × ISym) × List (String × ExternalSym))
    (fun st => st.1.map Prod.fst = (build_indices pruned).1.map Prod.fst ∧
      (∀ p ∈ st.1, p.2.id = p.1) ∧ (∀ p ∈ st.2, p.2.id = p.1) ∧
      (∀ p ∈ st.1, ∀ x, (x ∈ p.2.calls ∨ x ∈ p.2.calledBy) →
        x ∈ (build_indices pruned).1.map Prod.fst ∨ x ∈ st.2.map Prod.fst ∨
        pyStartswith x (PROJECT_TOKEN ++ "/") = true))
    deps.function_edges _ ?_ ((build_indices pruned).1, []) ?_
  · intro st e _ hst
    rcases hst with ⟨h1, h2, h3, h4⟩
    rcases intEdge_classify_step resolveRel (build_indices pruned).2
      ((build_indices pruned).1.map Prod.fst) hfn st e h1 h2 h3 h4 with
      ⟨g1, g2, g3, _, g5⟩
    exact ⟨g1, g2, g3, g5⟩
  · refine ⟨rfl, fun p hp => (hvals p hp).1, by simp, ?_⟩
    intro p hp x hx
    rcases hvals p hp with ⟨_, hcalls, hcalledBy⟩
    rcases hx with hx | hx
    · rw [hcalls] at hx
      exact absurd hx (List.not_mem_nil x)
    · rw [hcalledBy] at hx
      exact absurd hx (List.not_mem_nil x)

/-- C1 amended: every ID appearing in any calls or calledBy list of the
integrated output is the id of an output symbol, or the id of an output
externals entry, or a best-effort fallback ID carrying the project-token
prefix (synthesized for an endpoint that resolved to no project symbol and
whose file part was not absolute — such fallback IDs can dangle). -/
theorem c1_no_dangling_amended (resolveRel : String → String) (pruned : Pruned)
    (deps : Deps) :
    ∀ s ∈ (integrate resolveRel pruned deps).symbols, ∀ x,
      (x ∈ s.calls ∨ x ∈ s.calledBy) →
      (∃ t ∈ (integrate resolveRel pruned deps).symbols, t.id = x) ∨
      (∃ xe ∈ (integrate resolveRel pruned deps).externals, xe.id = x) ∨
      pyStartswith x (PROJECT_TOKEN ++ "/") = true := by
  intro s hs x hx
  rcases integrate_fold_inv resolveRel pruned deps with ⟨hkeys, hids, hexts, hclass⟩
  rw [integrate_symbols_eq] at hs
  rw [sortBy_mem] at hs
  rcases List.mem_map.mp hs with ⟨v, hv, hsv⟩
  rcases List.mem_map.mp hv with ⟨p, hp, hpv⟩
  have hx2 : x ∈ p.2.calls ∨ x ∈ p.2.calledBy := by
    rcases hx with hx | hx
    · rw [← hsv] at hx
      simp only at hx
      rw [sortStr_mem] at hx
      exact Or.inl (hpv ▸ hx)
    · rw [← hsv] at hx
      simp only at hx
      rw [sortStr_mem] at hx
      exact Or.inr (hpv ▸ hx)
  rcases hclass p hp x hx2 with h | h | h
  · rw [← hkeys] at h
    rcases List.mem_map.mp h with ⟨q, hq, hq1⟩
    refine Or.inl ⟨{ q.2 with calls := sortStr q.2.calls, calledBy := sortStr q.2.calledBy },
      ?_, ?_⟩
    · rw [integrate_symbols_eq, sortBy_mem]
      exact List.mem_map.mpr ⟨q.2, List.mem_map.mpr ⟨q, hq, rfl⟩, rfl⟩
    · simpa using (hids q hq).trans hq1
  · rcases List.mem_map.mp h with ⟨q, hq, hq1⟩
    refine Or.inr (Or.inl ⟨q.2, ?_, (hexts q hq).trans hq1⟩)
    rw [integrate_externals_eq, sortBy_mem]
    exact List.mem_map.mpr ⟨q, hq, rfl⟩
  · exact Or.inr (Or.inr h)

/-- C1 counterexample: a dependency edge to a bare endpoint that matches no
project symbol synthesizes the fallback ID PROJECT/ghost.py:g into the
caller's calls list, while no symbol and no externals entry carries that ID
— a dangling reference, refuting the claim as stated. -/
theorem c1_counterexample :
    (∃ s ∈ (integrate (fun s => s)
        ⟨"", [⟨some "main.py", some "f", [⟨some "PROJECT/main.py"⟩]⟩]⟩
        ⟨[⟨some "main.py:f", some "ghost.py:g"⟩]⟩).symbols,
      "PROJECT/ghost.py:g" ∈ s.calls) ∧
    (∀ s ∈ (integrate (fun s => s)
        ⟨"", [⟨some "main.py", some "f", [⟨some "PROJECT/main.py"⟩]⟩]⟩
        ⟨[⟨some "main.py:f", some "ghost.py:g"⟩]⟩).symbols,
      s.id ≠ "PROJECT/ghost.py:g") ∧
    (∀ e ∈ (integrate (fun s => s)
        ⟨"", [⟨some "main.py", some "f", [⟨some "PROJECT/main.py"⟩]⟩]⟩
        ⟨[⟨some "main.py:f", some "ghost.py:g"⟩]⟩).externals,
      e.id ≠ "PROJECT/ghost.py:g") := by
  decide

/-- C1 witness: the amended classification applied to the concrete dangling
example; the fallback ID is classified by its project-token prefix. -/
theorem c1_witness :
    (∃ t ∈ (integrate (fun s => s)
        ⟨"", [⟨some "main.py", some "f", [⟨some "PROJECT/main.py"⟩]⟩]⟩
        ⟨[⟨some "main.py:f", some "ghost.py:g"⟩]⟩).symbols,
      t.id = "PROJECT/ghost.py:g") ∨
    (∃ xe ∈ (integrate (fun s => s)
        ⟨"", [⟨some "main.py", some "f", [⟨some "PROJECT/main.py"⟩]⟩]⟩
        ⟨[⟨some "main.py:f", some "ghost.py:g"⟩]⟩).externals,
      xe.id = "PROJECT/ghost.py:g") ∨
    pyStartswith "PROJECT/ghost.py:g" (PROJECT_TOKEN ++ "/") = true := by
  refine c1_no_dangling_amended (fun s => s)
    ⟨"", [⟨some "main.py", some "f", [⟨some "PROJECT/main.py"⟩]⟩]⟩
    ⟨[⟨some "main.py:f", some "ghost.py:g"⟩]⟩
    ⟨"PROJECT/main.py:f", some "main.py", some "f", [⟨some "PROJECT/main.py"⟩],
      ["PROJECT/ghost.py:g"], []⟩ (by decide) "PROJECT/ghost.py:g" (by decide)

theorem attachCalls_shape (m : List (String × ISym)) (src_id dst_id sid : String)
    (fv nv : Option String) (dv : List PrunedDef)
    (h : ∃ cs cbs, dlookup sid m = some ⟨sid, fv, nv, dv, cs, cbs⟩) :
    ∃ cs cbs, dlookup sid (attachCalls m src_id dst_id) =
      some ⟨sid, fv, nv, dv, cs, cbs⟩ := by
  rcases h with ⟨cs, cbs, hl⟩
  unfold attachCalls
  by_cases hc : (dlookup src_id m).isSome = true
  · rw [if_pos hc]
    by_cases he : src_id = sid
    · subst he
      rw [dlookup_dmodify_self, hl]
      by_cases hd : dst_id ∈ (⟨src_id, fv, nv, dv, cs, cbs⟩ : ISym).calls
      · exact ⟨cs, cbs, by simp [hd]⟩
      · exact ⟨cs ++ [dst_id], cbs, by simp [hd]⟩
    · rw [dlookup_dmodify_ne src_id sid _ (fun hh => he hh.symm)]
      exact ⟨cs, cbs, hl⟩
  · rw [if_neg hc]
    exact ⟨cs, cbs, hl⟩

theorem attachCalledBy_shape (m : List (String × ISym)) (src_id dst_id sid : String)
    (fv nv : Option String) (dv : List PrunedDef)
    (h : ∃ cs cbs, dlookup sid m = some ⟨sid, fv, nv, dv, cs, cbs⟩) :
    ∃ cs cbs, dlookup sid (attachCalledBy m src_id dst_id) =
      some ⟨sid, fv, nv, dv, cs, cbs⟩ := by
  rcases h with ⟨cs, cbs, hl⟩
  unfold attachCalledBy
  by_cases hc : (dlookup dst_id m).isSome = true
  · rw [if_pos hc]
    by_cases he : dst_id = sid
    · subst he
      rw [dlookup_dmodify_self, hl]
      by_cases hd : src_id ∈ (⟨dst_id, fv, nv, dv, cs, cbs⟩ : ISym).calledBy
      · exact ⟨cs, cbs, by simp [hd]⟩
      · exact ⟨cs, cbs ++ [src_id], by simp [hd]⟩
    · rw [dlookup_dmodify_ne dst_id sid _ (fun hh => he hh.symm)]
      exact ⟨cs, cbs, hl⟩
  · rw [if_neg hc]
    exact ⟨cs, cbs, hl⟩

theorem intEdge_shape_step (resolveRel : String → String)
    (by_fn : List ((String × String) × String))
    (st : List (String × ISym) × List (String × ExternalSym)) (e : DepEdge)
    (sid : String) (fv nv : Option String) (dv : List PrunedDef)
    (h : ∃ cs cbs, dlookup sid st.1 = some ⟨sid, fv, nv, dv, cs, cbs⟩) :
    ∃ cs cbs, dlookup sid (integrateEdge resolveRel by_fn st e).1 =
      some ⟨sid, fv, nv, dv, cs, cbs⟩ := by
  unfold integrateEdge
  cases hs : e.src with
  | none => exact h
  | some sraw =>
    cases hd : e.dst with
    | none => exact h
    | some draw =>
      simp only
      cases hsi : id_from_dep_endpoint resolveRel by_fn sraw with
      | none => exact h
      | some src_id =>
        cases hdi : id_from_dep_endpoint resolveRel by_fn draw with
        | none => exact h
        | some dst_id =>
          simp only
          exact attachCalledBy_shape _ src_id dst_id sid fv nv dv
            (attachCalls_shape st.1 src_id dst_id sid fv nv dv h)

/-- After build_indices, the id of a duplicated CanonicalID maps to the
integrated copy of the last symbol that produced it. -/
theorem build_indices_last (pruned : Pruned) (L l3 : List PrunedSymbol)
    (s2 : PrunedSymbol) (sid : String)
    (hsym : pruned.symbols = L ++ s2 :: l3)
    (hid2 : compute_symbol_id s2 = some sid)
    (hl3 : ∀ t ∈ l3, compute_symbol_id t ≠ some sid) :
    dlookup sid (build_indices pruned).1 =
      some ⟨sid, s2.file, s2.name, s2.definitions, [], []⟩ := by
  unfold build_indices
  rw [hsym, List.foldl_append, List.foldl_cons]
  refine @foldl_inv_mem PrunedSymbol
    (List (String × ISym) × List ((String × String) × String))
    (fun acc => dlookup sid acc.1 =
      some ⟨sid, s2.file, s2.name, s2.definitions, [], []⟩)
    l3 _ ?_ _ ?_
  · intro b t ht hb
    cases hct : compute_symbol_id t with
    | none => simpa [hct] using hb
    | some sid2 =>
      have hne : sid ≠ sid2 := by
        intro hh
        exact hl3 t ht (hh ▸ hct)
      simp only [hct]
      rw [dlookup_dinsert_ne sid2 sid _ hne]
      exact hb
  · simp only [hid2]
    exact dlookup_dinsert_self sid _ _

/-- C7 (confirmed): when two distinct pruned symbols compute the same
CanonicalID, the last-registered symbol silently wins: the integrated output
contains an entry for that ID carrying the later symbol's fields, every
entry with that ID carries the later symbol's fields, and no entry retains
the earlier symbol's differing fields. -/
theorem c7_duplicate_id_last_wins (resolveRel : String → String) (pruned : Pruned)
    (deps : Deps) (l1 l2 l3 : List PrunedSymbol) (s1 s2 : PrunedSymbol) (sid : String)
    (hsym : pruned.symbols = l1 ++ s1 :: l2 ++ s2 :: l3)
    (_hid1 : compute_symbol_id s1 = some sid)
    (hid2 : compute_symbol_id s2 = some sid)
    (hl3 : ∀ t ∈ l3, compute_symbol_id t ≠ some sid) :
    (∃ e ∈ (integrate resolveRel pruned deps).symbols,
      e.id = sid ∧ e.file = s2.file ∧ e.name = s2.name ∧
        e.definitions = s2.definitions) ∧
    (∀ e ∈ (integrate resolveRel pruned deps).symbols, e.id = sid →
      e.file = s2.file ∧ e.name = s2.name ∧ e.definitions = s2.definitions) ∧
    ((s1.file, s1.name, s1.definitions) ≠ (s2.file, s2.name, s2.definitions) →
      ¬ ∃ e ∈ (integrate resolveRel pruned deps).symbols,
        e.id = sid ∧ e.file = s1.file ∧ e.name = s1.name ∧
          e.definitions = s1.definitions) := by
  have hbase : dlookup sid (build_indices pruned).1 =
      some ⟨sid, s2.file, s2.name, s2.definitions, [], []⟩ :=
    build_indices_last pruned (l1 ++ s1 :: l2) l3 s2 sid (by simp [hsym]) hid2 hl3
  have hshape : ∃ cs cbs,
      dlookup sid (deps.function_edges.foldl
        (integrateEdge resolveRel (build_indices pruned).2)
        ((build_indices pruned).1, [])).1 =
      some ⟨sid, s2.file, s2.name, s2.definitions, cs, cbs⟩ := by
    refine @foldl_inv_mem DepEdge (List (String × ISym) × List (String × ExternalSym))
      (fun st => ∃ cs cbs, dlookup sid st.1 =
        some ⟨sid, s2.file, s2.name, s2.definitions, cs, cbs⟩)
      deps.function_edges _ ?_ ((build_indices pruned).1, []) ⟨[], [], hbase⟩
    intro st e _ hst
    exact intEdge_shape_step resolveRel (build_indices pruned).2 st e sid
      s2.file s2.name s2.definitions hst
  rcases hshape with ⟨cs, cbs, hlook⟩
  rcases integrate_fold_inv resolveRel pruned deps with ⟨hkeys, hids, _, _⟩
  have hnodupF : ((deps.function_edges.foldl
      (integrateEdge resolveRel (build_indices pruned).2)
      ((build_indices pruned).1, [])).1.map Prod.fst).Nodup := by
    rw [hkeys]
    exact (build_indices_inv pruned).1
  have hex : (∃ e ∈ (integrate resolveRel pruned deps).symbols,
      e.id = sid ∧ e.file = s2.file ∧ e.name = s2.name ∧
        e.definitions = s2.definitions) := by
    refine ⟨{ (⟨sid, s2.file, s2.name, s2.definitions, cs, cbs⟩ : ISym) with
      calls := sortStr cs, calledBy := sortStr cbs }, ?_, by simp⟩
    rw [integrate_symbols_eq, sortBy_mem]
    exact List.mem_map.mpr ⟨⟨sid, s2.file, s2.name, s2.definitions, cs, cbs⟩,
      List.mem_map.mpr ⟨(sid, ⟨sid, s2.file, s2.name, s2.definitions, cs, cbs⟩),
        dlookup_mem _ _ _ hlook, rfl⟩, rfl⟩
  have huniq : ∀ e ∈ (integrate resolveRel pruned deps).symbols, e.id = sid →
      e.file = s2.file ∧ e.name = s2.name ∧ e.definitions = s2.definitions := by
    intro e he hesid
    rw [integrate_symbols_eq, sortBy_mem] at he
    rcases List.mem_map.mp he with ⟨v, hv, hev⟩
    rcases List.mem_map.mp hv with ⟨p, hp, hpv⟩
    have hpid : p.2.id = p.1 := hids p hp
    have hvid : v.id = p.1 := by rw [← hpv]; exact hpid
    have hp1 : p.1 = sid := by
      rw [← hesid, ← hev]
      dsimp only
      exact hvid.symm
    have hlook2 : dlookup p.1 (List.foldl (integrateEdge resolveRel (build_indices pruned).2)
        ((build_indices pruned).1, []) deps.function_edges).1 = some p.2 :=
      dlookup_of_mem_nodup p.1 p.2 _ hnodupF (by rw [Prod.mk.eta]; exact hp)
    rw [hp1, hlook] at hlook2
    have hv2 : p.2 = ⟨sid, s2.file, s2.name, s2.definitions, cs, cbs⟩ := by
      injection hlook2 with hh
      exact hh.symm
    have hv3 : v = ⟨sid, s2.file, s2.name, s2.definitions, cs, cbs⟩ := by
      rw [← hpv]; exact hv2
    rw [← hev, hv3]
    exact ⟨rfl, rfl, rfl⟩
  refine ⟨hex, huniq, ?_⟩
  intro hne ⟨e, he, hesid, hef, hen, hed⟩
  rcases huniq e he hesid with ⟨h1, h2, h3⟩
  exact hne (by rw [← hef, ← hen, ← hed, h1, h2, h3])

/-- C7 witness: two distinct symbols with the same CanonicalID; the output
keeps the later one's fields and drops the earlier one's. -/
theorem c7_witness :
    (∃ e ∈ (integrate (fun s => s)
        ⟨"", [⟨some "f1.py", some "n", [⟨some "PROJECT/x.py"⟩]⟩,
              ⟨some "f2.py", some "n", [⟨some "PROJECT/x.py"⟩]⟩]⟩ ⟨[]⟩).symbols,
      e.id = "PROJECT/x.py:n" ∧ e.file = some "f2.py" ∧ e.name = some "n" ∧
        e.definitions = [⟨some "PROJECT/x.py"⟩]) ∧
    (∀ e ∈ (integrate (fun s => s)
        ⟨"", [⟨some "f1.py", some "n", [⟨some "PROJECT/x.py"⟩]⟩,
              ⟨some "f2.py", some "n", [⟨some "PROJECT/x.py"⟩]⟩]⟩ ⟨[]⟩).symbols,
      e.id = "PROJECT/x.py:n" →
      e.file = some "f2.py" ∧ e.name = some "n" ∧
        e.definitions = [⟨some "PROJECT/x.py"⟩]) := by
  have h := c7_duplicate_id_last_wins (fun s => s)
    ⟨"", [⟨some "f1.py", some "n", [⟨some "PROJECT/x.py"⟩]⟩,
          ⟨some "f2.py", some "n", [⟨some "PROJECT/x.py"⟩]⟩]⟩ ⟨[]⟩
    [] [] [] ⟨some "f1.py", some "n", [⟨some "PROJECT/x.py"⟩]⟩
    ⟨some "f2.py", some "n", [⟨some "PROJECT/x.py"⟩]⟩ "PROJECT/x.py:n"
    (by decide) (by decide) (by decide) (fun t ht => absurd ht (List.not_mem_nil t))
  exact ⟨h.1, h.2.1⟩

theorem toList_inj (a b : String) (h : a.toList = b.toList) : a = b :=
  congrArg String.mk h

theorem make_external_inj (a b c d : String) (hb : ':' ∉ b.toList) (hd : ':' ∉ d.toList)
    (h : make_external_id a b = make_external_id c d) : a = c ∧ b = d := by
  unfold make_external_id at h
  have h2 : a.toList ++ ':' :: b.toList = c.toList ++ ':' :: d.toList := by
    have h3 := congrArg String.toList h
    rw [strToList_append, strToList_append, strToList_append, strToList_append] at h3
    simpa [List.append_assoc] using h3
  rcases colon_decomp_unique a.toList c.toList b.toList d.toList hb hd h2 with ⟨h3, h4⟩
  exact ⟨toList_inj a c h3, toList_inj b d h4⟩

theorem countP_key_eq_one {K V : Type} [DecidableEq K] (m : List (K × V)) (k : K)
    (hn : (m.map Prod.fst).Nodup) (hk : k ∈ m.map Prod.fst) :
    m.countP (fun p => decide (p.1 = k)) = 1 := by
  induction m with
  | nil => simp at hk
  | cons p rest ih =>
    simp only [List.map_cons, List.nodup_cons] at hn
    by_cases hp : p.1 = k
    · have hzero : rest.countP (fun p => decide (p.1 = k)) = 0 := by
        rw [List.countP_eq_zero]
        intro a ha
        simp only [decide_eq_true_eq]
        intro he
        exact hn.1 (hp ▸ he ▸ List.mem_map.mpr ⟨a, ha, rfl⟩)
      rw [List.countP_cons]
      simp [hp, hzero]
    · rcases List.mem_cons.mp hk with h1 | h1
      · exact absurd h1.symm hp
      · rw [List.countP_cons]
        simp [hp, ih hn.2 h1]

theorem registerExternal_nodup (resolveRel : String → String)
    (by_id : List (String × ISym)) (ext : List (String × ExternalSym)) (raw eid : String)
    (hn : (ext.map Prod.fst).Nodup) :
    ((registerExternal resolveRel by_id ext raw eid).map Prod.fst).Nodup := by
  unfold registerExternal
  by_cases h1 : ((dlookup eid by_id).isNone && (dlookup eid ext).isNone) = true
  · rw [if_pos h1]
    by_cases h2 : pyStartswith (parse_dep_endpoint resolveRel raw).1 "/" = true
    · rw [if_pos h2]
      exact keys_dinsert_nodup eid _ ext hn
    · rw [if_neg h2]
      exact hn
  · rw [if_neg h1]
    exact hn

theorem registerExternal_mem2 (resolveRel : String → String)
    (by_id : List (String × ISym)) (ext : List (String × ExternalSym)) (raw eid : String)
    (p : String × ExternalSym) (hp : p ∈ registerExternal resolveRel by_id ext raw eid) :
    p ∈ ext ∨
    (p = (eid, ⟨eid, normalize_external_path resolveRel (parse_dep_endpoint resolveRel raw).1,
        (parse_dep_endpoint resolveRel raw).2⟩) ∧
      pyStartswith (parse_dep_endpoint resolveRel raw).1 "/" = true) := by
  unfold registerExternal at hp
  by_cases h1 : ((dlookup eid by_id).isNone && (dlookup eid ext).isNone) = true
  · rw [if_pos h1] at hp
    by_cases h2 : pyStartswith (parse_dep_endpoint resolveRel raw).1 "/" = true
    · rw [if_pos h2] at hp
      rcases mem_dinsert_elim _ _ _ p hp with h3 | h3
      · exact Or.inr ⟨h3, h2⟩
      · exact Or.inl h3
    · rw [if_neg h2] at hp
      exact Or.inl hp
  · rw [if_neg h1] at hp
    exact Or.inl hp

theorem registerExternal_registers (resolveRel : String → String)
    (by_id : List (String × ISym)) (ext : List (String × ExternalSym)) (raw eid : String)
    (h1 : dlookup eid by_id = none)
    (hf : pyStartswith (parse_dep_endpoint resolveRel raw).1 "/" = true) :
    eid ∈ (registerExternal resolveRel by_id ext raw eid).map Prod.fst := by
  unfold registerExternal
  cases hce : dlookup eid ext with
  | some v =>
    rw [if_neg (by simp [hce])]
    exact List.mem_map.mpr ⟨(eid, v), dlookup_mem eid v ext hce, rfl⟩
  | none =>
    rw [if_pos (by simp [h1, hce])]
    rw [if_pos hf]
    exact (keys_dinsert_mem eid eid _ ext).mpr (Or.inl rfl)

theorem intEdge_keys1 (resolveRel : String → String)
    (by_fn : List ((String × String) × String))
    (st : List (String × ISym) × List (String × ExternalSym)) (e : DepEdge) :
    (integrateEdge resolveRel by_fn st e).1.map Prod.fst = st.1.map Prod.fst := by
  unfold integrateEdge
  cases hs : e.src with
  | none => rfl
  | some sraw =>
    cases hd : e.dst with
    | none => rfl
    | some draw =>
      simp only
      cases hsi : id_from_dep_endpoint resolveRel by_fn sraw with
      | none => rfl
      | some src_id =>
        cases hdi : id_from_dep_endpoint resolveRel by_fn draw with
        | none => rfl
        | some dst_id =>
          simp only
          rw [attachCalledBy_keys, attachCalls_keys]

theorem intEdge_ext_mono (resolveRel : String → String)
    (by_fn : List ((String × String) × String))
    (st : List (String × ISym) × List (String × ExternalSym)) (e : DepEdge)
    (x : String) (hx : x ∈ st.2.map Prod.fst) :
    x ∈ (integrateEdge resolveRel by_fn st e).2.map Prod.fst := by
  unfold integrateEdge
  cases hs : e.src with
  | none => exact hx
  | some sraw =>
    cases hd : e.dst with
    | none => exact hx
    | some draw =>
      simp only
      cases hsi : id_from_dep_endpoint resolveRel by_fn sraw with
      | none => exact hx
      | some src_id =>
        cases hdi : id_from_dep_endpoint resolveRel by_fn draw with
        | none => exact hx
        | some dst_id =>
          simp only
          exact registerExternal_keys_mono resolveRel st.1 _ draw dst_id x
            (registerExternal_keys_mono resolveRel st.1 st.2 sraw src_id x hx)

/-- One edge of the loop preserves the externals invariant: distinct keys,
id-equals-key, and provenance (each entry was built from a parsed endpoint
with an absolute file part, its key being the corresponding external id and
its name colon-free). -/
theorem intEdge_ext_inv_step (resolveRel : String → String)
    (by_fn : List ((String × String) × String))
    (st : List (String × ISym) × List (String × ExternalSym)) (e : DepEdge)
    (hn : (st.2.map Prod.fst).Nodup)
    (hprov : ∀ p ∈ st.2, p.2.id = p.1 ∧ ∃ g m,
      p.1 = make_external_id (normalize_external_path resolveRel g) m ∧
      p.2.absolutePath = normalize_external_path resolveRel g ∧
      p.2.name = m ∧ ':' ∉ m.toList) :
    ((integrateEdge resolveRel by_fn st e).2.map Prod.fst).Nodup ∧
    (∀ p ∈ (integrateEdge resolveRel by_fn st e).2, p.2.id = p.1 ∧ ∃ g m,
      p.1 = make_external_id (normalize_external_path resolveRel g) m ∧
      p.2.absolutePath = normalize_external_path resolveRel g ∧
      p.2.name = m ∧ ':' ∉ m.toList) := by
  unfold integrateEdge
  cases hs : e.src with
  | none => exact ⟨hn, hprov⟩
  | some sraw =>
    cases hd : e.dst with
    | none => exact ⟨hn, hprov⟩
    | some draw =>
      simp only
      cases hsi : id_from_dep_endpoint resolveRel by_fn sraw with
      | none => exact ⟨hn, hprov⟩
      | some src_id =>
        cases hdi : id_from_dep_endpoint resolveRel by_fn draw with
        | none => exact ⟨hn, hprov⟩
        | some dst_id =>
          simp only
          have hreg : ∀ (ext : List (String × ExternalSym)) (raw eid : String),
              id_from_dep_endpoint resolveRel by_fn raw = some eid →
              (∀ p ∈ ext, p.2.id = p.1 ∧ ∃ g m,
                p.1 = make_external_id (normalize_external_path resolveRel g) m ∧
                p.2.absolutePath = normalize_external_path resolveRel g ∧
                p.2.name = m ∧ ':' ∉ m.toList) →
              ∀ p ∈ registerExternal resolveRel st.1 ext raw eid,
                p.2.id = p.1 ∧ ∃ g m,
                p.1 = make_external_id (normalize_external_path resolveRel g) m ∧
                p.2.absolutePath = normalize_external_path resolveRel g ∧
                p.2.name = m ∧ ':' ∉ m.toList := by
            intro ext raw eid hid hext p hp
            rcases registerExternal_mem2 resolveRel st.1 ext raw eid p hp with h1 | ⟨h1, h2⟩
            · exact hext p h1
            · rcases id_from_absolute resolveRel by_fn raw eid
                (parse_dep_endpoint resolveRel raw).1 (parse_dep_endpoint resolveRel raw).2
                Prod.mk.eta.symm h2 hid with ⟨heid, _⟩
              refine ⟨by rw [h1], (parse_dep_endpoint resolveRel raw).1,
                (parse_dep_endpoint resolveRel raw).2, ?_, ?_, ?_, ?_⟩
              · rw [h1]
                exact heid
              · rw [h1]
              · rw [h1]
              · exact parse_name_colon_free resolveRel raw _ _ Prod.mk.eta.symm
          constructor
          · exact registerExternal_nodup resolveRel st.1 _ draw dst_id
              (registerExternal_nodup resolveRel st.1 st.2 sraw src_id hn)
          · exact hreg _ draw dst_id hdi (hreg st.2 sraw src_id hsi hprov)

theorem intEdge_registers (resolveRel : String → String)
    (by_fn : List ((String × String) × String))
    (st : List (String × ISym) × List (String × ExternalSym)) (e : DepEdge)
    (sraw draw raw f n : String)
    (hs : e.src = some sraw) (hd : e.dst = some draw)
    (hs_ok : (id_from_dep_endpoint resolveRel by_fn sraw).isSome = true)
    (hd_ok : (id_from_dep_endpoint resolveRel by_fn draw).isSome = true)
    (hraw : raw = sraw ∨ raw = draw)
    (hp : parse_dep_endpoint resolveRel raw = (f, n))
    (hf : pyStartswith f "/" = true)
    (hnk : dlookup (make_external_id (normalize_external_path resolveRel f) n) st.1 = none) :
    make_external_id (normalize_external_path resolveRel f) n ∈
      (integrateEdge resolveRel by_fn st e).2.map Prod.fst := by
  obtain ⟨src_id, hsi⟩ := Option.isSome_iff_exists.mp hs_ok
  obtain ⟨dst_id, hdi⟩ := Option.isSome_iff_exists.mp hd_ok
  unfold integrateEdge
  rw [hs, hd]
  simp only
  rw [hsi, hdi]
  simp only
  rcases hraw with hraw | hraw
  · subst hraw
    have hid := id_from_absolute resolveRel by_fn raw src_id f n hp hf hsi
    rw [← hid.1]
    refine registerExternal_keys_mono resolveRel st.1 _ draw dst_id src_id ?_
    refine registerExternal_registers resolveRel st.1 st.2 raw src_id ?_ ?_
    · rw [hid.1]; exact hnk
    · rw [hp]; exact hf
  · subst hraw
    have hid := id_from_absolute resolveRel by_fn raw dst_id f n hp hf hdi
    rw [← hid.1]
    refine registerExternal_registers resolveRel st.1 _ raw dst_id ?_ ?_
    · rw [hid.1]; exact hnk
    · rw [hp]; exact hf

/-- C6 (confirmed): an edge endpoint whose file part is absolute and that
matches no project symbol yields exactly one externals entry, whose id,
absolutePath and name are the external id, the normalized absolute path and
the endpoint name; repeated references never add a second entry. -/
theorem c6_externals_once (resolveRel : String → String) (pruned : Pruned) (deps : Deps)
    (e : DepEdge) (he : e ∈ deps.function_edges) (sraw draw raw f n : String)
    (hs : e.src = some sraw) (hd : e.dst = some draw)
    (hs_ok : (id_from_dep_endpoint resolveRel (build_indices pruned).2 sraw).isSome = true)
    (hd_ok : (id_from_dep_endpoint resolveRel (build_indices pruned).2 draw).isSome = true)
    (hraw : raw = sraw ∨ raw = draw)
    (hp : parse_dep_endpoint resolveRel raw = (f, n))
    (hf : pyStartswith f "/" = true)
    (hnotproj : dlookup (make_external_id (normalize_external_path resolveRel f) n)
      (build_indices pruned).1 = none) :
    ((integrate resolveRel pruned deps).externals.filter
      (fun x => decide (x.id =
        make_external_id (normalize_external_path resolveRel f) n))).length = 1 ∧
    (∀ x ∈ (integrate resolveRel pruned deps).externals,
      x.id = make_external_id (normalize_external_path resolveRel f) n →
      x = ⟨make_external_id (normalize_external_path resolveRel f) n,
        normalize_external_path resolveRel f, n⟩) := by
  have hE : (((deps.function_edges.foldl
        (integrateEdge resolveRel (build_indices pruned).2)
        ((build_indices pruned).1, [])).2.map Prod.fst).Nodup ∧
      (∀ p ∈ (deps.function_edges.foldl
        (integrateEdge resolveRel (build_indices pruned).2)
        ((build_indices pruned).1, [])).2, p.2.id = p.1 ∧ ∃ g m,
          p.1 = make_external_id (normalize_external_path resolveRel g) m ∧
          p.2.absolutePath = normalize_external_path resolveRel g ∧
          p.2.name = m ∧ ':' ∉ m.toList)) := by
    refine @foldl_inv_mem DepEdge (List (String × ISym) × List (String × ExternalSym))
      (fun s => ((s.2.map Prod.fst).Nodup ∧
        (∀ p ∈ s.2, p.2.id = p.1 ∧ ∃ g m,
          p.1 = make_external_id (normalize_external_path resolveRel g) m ∧
          p.2.absolutePath = normalize_external_path resolveRel g ∧
          p.2.name = m ∧ ':' ∉ m.toList)))
      deps.function_edges _ ?_ ((build_indices pruned).1, []) ⟨by simp, by simp⟩
    intro st e2 _ hst
    exact intEdge_ext_inv_step resolveRel (build_indices pruned).2 st e2 hst.1 hst.2
  have hmemF : make_external_id (normalize_external_path resolveRel f) n ∈
      (deps.function_edges.foldl (integrateEdge resolveRel (build_indices pruned).2)
        ((build_indices pruned).1, [])).2.map Prod.fst := by
    obtain ⟨L1, L2, hsplit⟩ := List.append_of_mem he
    rw [hsplit, List.foldl_append, List.foldl_cons]
    have hkeysA : (L1.foldl (integrateEdge resolveRel (build_indices pruned).2)
        ((build_indices pruned).1, [])).1.map Prod.fst =
        (build_indices pruned).1.map Prod.fst := by
      refine @foldl_inv_mem DepEdge (List (String × ISym) × List (String × ExternalSym))
        (fun s => s.1.map Prod.fst = (build_indices pruned).1.map Prod.fst)
        L1 _ ?_ ((build_indices pruned).1, []) rfl
      intro st e2 _ hst
      rw [intEdge_keys1]
      exact hst
    have hA : dlookup (make_external_id (normalize_external_path resolveRel f) n)
        (L1.foldl (integrateEdge resolveRel (build_indices pruned).2)
          ((build_indices pruned).1, [])).1 = none := by
      rw [dlookup_none_iff, hkeysA]
      rw [← dlookup_none_iff]
      exact hnotproj
    refine @foldl_inv_mem DepEdge (List (String × ISym) × List (String × ExternalSym))
      (fun s => make_external_id (normalize_external_path resolveRel f) n ∈
        s.2.map Prod.fst)
      L2 _ ?_ _ ?_
    · intro st e2 _ hst
      exact intEdge_ext_mono resolveRel (build_indices pruned).2 st e2 _ hst
    · exact intEdge_registers resolveRel (build_indices pruned).2 _ e sraw draw raw f n
        hs hd hs_ok hd_ok hraw hp hf hA
  have hnfree : ':' ∉ n.toList := parse_name_colon_free resolveRel raw f n hp
  have hcontent : ∀ x ∈ (integrate resolveRel pruned deps).externals,
      x.id = make_external_id (normalize_external_path resolveRel f) n →
      x = ⟨make_external_id (normalize_external_path resolveRel f) n,
        normalize_external_path resolveRel f, n⟩ := by
    intro x hx hxid
    rw [integrate_externals_eq, sortBy_mem] at hx
    rcases List.mem_map.mp hx with ⟨p, hpmem, hpx⟩
    rcases hE.2 p hpmem with ⟨hidk, g, m, hkey, habs, hname, hmfree⟩
    have hkeyx : p.1 = make_external_id (normalize_external_path resolveRel f) n := by
      rw [← hidk, hpx, hxid]
    have heq : make_external_id (normalize_external_path resolveRel g) m =
        make_external_id (normalize_external_path resolveRel f) n := by
      rw [← hkey, hkeyx]
    rcases make_external_inj _ _ _ _ hmfree hnfree heq with ⟨hgf, hmn⟩
    have hxeta : x = ⟨x.id, x.absolutePath, x.name⟩ := rfl
    rw [hxeta, hxid, ← hpx, habs, hname, hgf, hmn]
  refine ⟨?_, hcontent⟩
  rw [← List.countP_eq_length_filter, integrate_externals_eq]
  rw [List.Perm.countP_eq _ (sortBy_perm _ _)]
  rw [List.countP_map]
  rw [List.countP_congr (fun p hpmem => by
    show (decide (p.2.id = make_external_id (normalize_external_path resolveRel f) n)
      = true) ↔ (decide (p.1 = make_external_id (normalize_external_path resolveRel f) n)
      = true)
    rw [(hE.2 p hpmem).1])]
  exact countP_key_eq_one _ _ hE.1 hmemF

/-- C6 witness: the scenario endpoint /usr/lib/foo.py:bar yields exactly one
externals entry with the documented fields. -/
theorem c6_witness :
    ((integrate (fun s => s) ⟨"", []⟩
      ⟨[⟨some "/usr/lib/a.py:f", some "/usr/lib/foo.py:bar"⟩]⟩).externals.filter
      (fun x => decide (x.id = make_external_id
        (normalize_external_path (fun s => s) "/usr/lib/foo.py") "bar"))).length = 1 ∧
    (∀ x ∈ (integrate (fun s => s) ⟨"", []⟩
        ⟨[⟨some "/usr/lib/a.py:f", some "/usr/lib/foo.py:bar"⟩]⟩).externals,
      x.id = make_external_id (normalize_external_path (fun s => s) "/usr/lib/foo.py") "bar" →
      x = ⟨make_external_id (normalize_external_path (fun s => s) "/usr/lib/foo.py") "bar",
        normalize_external_path (fun s => s) "/usr/lib/foo.py", "bar"⟩) :=
  c6_externals_once (fun s => s) ⟨"", []⟩
    ⟨[⟨some "/usr/lib/a.py:f", some "/usr/lib/foo.py:bar"⟩]⟩
    ⟨some "/usr/lib/a.py:f", some "/usr/lib/foo.py:bar"⟩
    (by decide) "/usr/lib/a.py:f" "/usr/lib/foo.py:bar" "/usr/lib/foo.py:bar"
    "/usr/lib/foo.py" "bar" rfl rfl (by decide) (by decide) (Or.inr rfl)
    (by decide) (by decide) (by decide)


/-! ### Claims C4 and C9: the self-reference rejection step and the
no-self-edge guarantee of the call-edge builder. -/
theorem jor_mkRange (a b c d : Int) (x : J) : jor (mkRange a b c d) x = mkRange a b c d := by
  simp [jor, mkRange, J.truthy]

theorem symbol_span_mk (nm : Option String) (k : Option Int) (ds : List BDef)
    (rs : List BRef) (sl sc el ec : Int) :
    symbol_span ⟨nm, k, mkRange sl sc el ec, ds, rs⟩ = .ok (sl, sc, el, ec) := by
  simp [symbol_span, mkRange, jor, jget, jgetE, jToInt, dlookup, J.truthy,
    Bind.bind, Except.bind, Pure.pure, Except.pure]

theorem c4_pos_big (l : Int) (h0 : 0 ≤ l) (h1 : l < 1000000) :
    pos_in_range l 4 (mkRange 0 0 1000000 0) = .ok true := by
  have hA : ¬ (l < 0 ∨ 1000000 < l) := by omega
  have hB : ¬ (l = 0 ∧ (4 : Int) < 0) := by omega
  have hC : ¬ l = 1000000 := by omega
  simp [pos_in_range, mkRange, jor, jget, jgetE, jToInt, dlookup, J.truthy,
    Bind.bind, Except.bind, Pure.pure, Except.pure, hA, hB, hC]

theorem c4_sortKey : sortKeyPy c4C = .ok (0, 10000000000) := by
  simp [sortKeyPy, c4C, symbol_span_mk, Bind.bind, Except.bind, Pure.pure, Except.pure]

theorem c4_find (l : Int) (h0 : 0 ≤ l) (h1 : l < 1000000) :
    find_enclosing_symbol [c4C] l 4 = .ok (some c4C) := by
  have hp : pos_in_range l 4 (jor c4C.range (J.jobj [])) = .ok true := by
    show pos_in_range l 4 (jor (mkRange 0 0 1000000 0) (J.jobj [])) = .ok true
    rw [jor_mkRange]; exact c4_pos_big l h0 h1
  simp [find_enclosing_symbol, hp, c4_sortKey, sortBy, insertBy,
    Bind.bind, Except.bind, Pure.pure, Except.pure, List.foldlM, List.mapM, List.mapM.loop]

theorem c4_span : symbol_span c4C = .ok (0, 0, 1000000, 0) := rfl

theorem c4_name : c4C.name = some "C" := rfl

theorem c4_ref (oracle : String → Int → Option String) (l d : Int)
    (h0 : 0 ≤ l) (h1 : l < 1000000) :
    process_ref oracle [("a.py", [c4S l d]), ("b.py", [c4C])] ["a.py", "b.py"]
      "S" "a.py:S" (some d) (c4R l) =
      .ok (if l = d then none else some (⟨"b.py:C", "a.py:S"⟩, "b.py")) := by
  by_cases h : l = d
  · simp [process_ref, c4R, mkRange, orStrOpt, jor, jget, jgetE, jAsInt, dlookup,
      J.truthy, get_line_text, looks_like_import, h,
      Bind.bind, Except.bind, Pure.pure, Except.pure]
  · simp [process_ref, c4R, mkRange, orStrOpt, jor, jget, jgetE, jAsInt, dlookup,
      J.truthy, get_line_text, looks_like_import, looks_like_call_context,
      normalize_ref_file, h, c4_find l h0 h1, c4_span, c4_name,
      Bind.bind, Except.bind, Pure.pure, Except.pure]

theorem c4_canon (l d : Int) : canonicalize_callee (c4S l d) "a.py" = ("a.py", "S") := rfl

theorem c4_cdl (l d : Int) : callee_def_line_of (c4S l d) = .ok (some d) := rfl

theorem c4_symS (oracle : String → Int → Option String) (l d : Int)
    (h0 : 0 ≤ l) (h1 : l < 1000000) :
    process_symbol oracle [("a.py", [c4S l d]), ("b.py", [c4C])] ["a.py", "b.py"]
      "a.py" ([], []) (c4S l d) =
      .ok (if l = d then ([], [])
           else ([⟨"b.py:C", "a.py:S"⟩], [("b.py", "a.py")])) := by
  by_cases h : l = d
  · subst h
    simp [process_symbol, c4_canon, c4_cdl, normalize_ref_file,
      c4_ref oracle l l h0 h1, List.foldlM,
      Bind.bind, Except.bind, Pure.pure, Except.pure]
  · simp [process_symbol, c4_canon, c4_cdl, normalize_ref_file,
      c4_ref oracle l d h0 h1, h, List.foldlM,
      Bind.bind, Except.bind, Pure.pure, Except.pure]

theorem c4_symC (oracle : String → Int → Option String)
    (idx : List (String × List BSym)) (keys : List String)
    (st : List Edge × List (String × String)) :
    process_symbol oracle idx keys "b.py" st c4C = .ok st := rfl

/-- C4 amended: over the two-file family c4doc l d (reference in b.py at
line l, callee S declared in a.py at line d, enclosing caller C in b.py),
the reference is rejected as a self-reference exactly when the two line
numbers coincide, regardless of the files being different; for any other
pair of lines the edge is emitted. -/
theorem c4_selfref_line_only (oracle : String → Int → Option String) (l d : Int)
    (h0 : 0 ≤ l) (h1 : l < 1000000) :
    build_dependencies oracle (c4doc l d) =
      .ok ⟨(if l = d then [] else [⟨"b.py:C", "a.py:S"⟩]),
           (if l = d then [] else [⟨"b.py", "a.py"⟩])⟩ := by
  by_cases h : l = d
  · subst h
    have hidx : build_symbol_index
        [{ file := some "a.py", symbols := [c4S l l] },
         { file := some "b.py", symbols := [c4C] }] =
        [("a.py", [c4S l l]), ("b.py", [c4C])] := rfl
    have hfiles : (c4doc l l).files =
        [{ file := some "a.py", symbols := [c4S l l] },
         { file := some "b.py", symbols := [c4C] }] := rfl
    have hS := c4_symS oracle l l h0 h1
    rw [if_pos rfl] at hS
    simp [build_dependencies, hidx, hfiles, hS, c4_symC,
      List.foldlM, pyDedup, pyDedupAux, sortBy, insertBy,
      Bind.bind, Except.bind, Pure.pure, Except.pure]
  · have hidx : build_symbol_index
        [{ file := some "a.py", symbols := [c4S l d] },
         { file := some "b.py", symbols := [c4C] }] =
        [("a.py", [c4S l d]), ("b.py", [c4C])] := rfl
    have hfiles : (c4doc l d).files =
        [{ file := some "a.py", symbols := [c4S l d] },
         { file := some "b.py", symbols := [c4C] }] := rfl
    have hS := c4_symS oracle l d h0 h1
    rw [if_neg h] at hS
    simp [build_dependencies, hidx, hfiles, hS, c4_symC, h,
      List.foldlM, pyDedup, pyDedupAux, sortBy, insertBy,
      Bind.bind, Except.bind, Pure.pure, Except.pure]

theorem process_ref_ne (oracle : String → Int → Option String)
    (index : List (String × List BSym)) (keys : List String)
    (cn cid : String) (cdl : Option Int) (ref : BRef)
    (p : Edge × String)
    (h : process_ref oracle index keys cn cid cdl ref = .ok (some p)) :
    p.1.src ≠ p.1.dst := by
  unfold process_ref at h
  cases ho : orStrOpt ref.relativePath ref.absolutePath with
  | none => rw [ho] at h; cases h
  | some ref_file =>
    rw [ho] at h
    cases hr : ref.range with
    | jobj fs =>
      rw [hr] at h
      simp only [Bind.bind, Except.bind, Pure.pure, Except.pure] at h
      split at h
      · simp at h
      split at h
      · simp at h
      split at h
      · simp at h
      split at h
      · simp at h
      split at h
      · simp at h
      split at h
      · simp at h
      split at h
      · simp at h
      split at h
      · simp at h
      split at h
      · simp at h
      split at h
      · simp at h
      split at h
      · simp at h
      split at h
      · simp at h
      split at h
      case isTrue hg =>
        simp only [Except.ok.injEq, Option.some.injEq] at h
        subst h
        simpa using hg
      case isFalse => simp at h
    | null => rw [hr] at h; cases h
    | jbool b => rw [hr] at h; cases h
    | jnum n => rw [hr] at h; cases h
    | jstr s => rw [hr] at h; cases h
    | jarr xs => rw [hr] at h; cases h

theorem process_symbol_ne (oracle : String → Int → Option String)
    (index : List (String × List BSym)) (keys : List String) (cfr : String)
    (st st2 : List Edge × List (String × String)) (sym : BSym)
    (hst : ∀ e ∈ st.1, e.src ≠ e.dst)
    (h : process_symbol oracle index keys cfr st sym = .ok st2) :
    ∀ e ∈ st2.1, e.src ≠ e.dst := by
  unfold process_symbol at h
  simp only [Bind.bind] at h
  rcases except_bind_ok _ _ _ h with ⟨cdl, hcdl, h⟩
  refine @foldlM_ok_inv _ _ (fun b => ∀ e ∈ b.1, e.src ≠ e.dst) _ ?_ sym.references st st2 hst h
  intro b a b2 hP hs
  simp only [Bind.bind] at hs
  rcases except_bind_ok _ _ _ hs with ⟨r, hr, hs⟩
  cases r with
  | none =>
    cases hs
    exact hP
  | some er =>
    simp only [Pure.pure, Except.pure, Except.ok.injEq] at hs
    subst hs
    intro e he
    rcases List.mem_append.mp he with h1 | h1
    · exact hP e h1
    · rcases List.mem_singleton.mp h1 with rfl
      exact process_ref_ne oracle index keys _ _ cdl a er hr

/-- C9: every function edge emitted by build_dependencies has distinct source
and destination: the guard on the caller and callee ids admits an edge only
when the two ids differ, and deduplication only removes elements. -/
theorem c9_no_self_edges (oracle : String → Int → Option String) (data : BDoc)
    (out : BDeps) (h : build_dependencies oracle data = .ok out) :
    ∀ e ∈ out.function_edges, e.src ≠ e.dst := by
  unfold build_dependencies at h
  simp only [Bind.bind, Except.bind, Pure.pure, Except.pure] at h
  split at h
  · simp at h
  case h_2 st hst =>
    simp only [Except.ok.injEq] at h
    subst h
    intro e he
    have hmem : e ∈ st.1 := pyDedup_subset st.1 e he
    have hinv : ∀ x ∈ st.1, x.src ≠ x.dst := by
      refine @foldlM_ok_inv _ _ (fun b => ∀ x ∈ b.1, x.src ≠ x.dst) _ ?_ data.files ([], []) st (by simp) hst
      intro b a b2 hP hs
      cases hfa : a.file with
      | none =>
        rw [hfa] at hs
        cases hs
        exact hP
      | some cfr =>
        rw [hfa] at hs
        refine @foldlM_ok_inv _ _ (fun b => ∀ x ∈ b.1, x.src ≠ x.dst) _ ?_ a.symbols b b2 hP hs
        intro c d c2 hPc hsc
        exact process_symbol_ne oracle _ _ cfr c c2 d hPc hsc
    exact hinv e hmem

/-- C4 counterexample: the self-reference rejection compares line numbers
only.  The reference to S recorded in b.py at line 5 is not on S's
declaration line (S is declared in a.py), yet it is rejected because S's
declaration line number is also 5 and no edge is emitted; moving the two
line numbers apart (3 and 7) emits the edge, showing no other filter was
responsible — refuting the claim as stated. -/
theorem c4_counterexample :
    build_dependencies (fun _ _ => none) (c4doc 5 5) =
      .ok { function_edges := [], file_edges := [] } ∧
    build_dependencies (fun _ _ => none) (c4doc 3 7) =
      .ok { function_edges := [⟨"b.py:C", "a.py:S"⟩],
            file_edges := [⟨"b.py", "a.py"⟩] } := ⟨rfl, rfl⟩

/-- C4 witness: the amended statement evaluated at lines 2 and 9. -/
theorem c4_witness :
    build_dependencies (fun _ _ => none) (c4doc 2 9) =
      .ok { function_edges := [⟨"b.py:C", "a.py:S"⟩],
            file_edges := [⟨"b.py", "a.py"⟩] } := by
  have h := c4_selfref_line_only (fun _ _ => none) 2 9 (by decide) (by decide)
  simpa using h

/-- C9 witness: no-self-edge property instantiated on the concrete document
of the c4doc family that emits one edge. -/
theorem c9_witness :
    (Edge.mk "b.py:C" "a.py:S").src ≠ (Edge.mk "b.py:C" "a.py:S").dst :=
  c9_no_self_edges (fun _ _ => none) (c4doc 3 7)
    (BDeps.mk [⟨"b.py:C", "a.py:S"⟩] [⟨"b.py", "a.py"⟩]) (by rfl)
    (Edge.mk "b.py:C" "a.py:S") (by decide)


/-! ### Claims C2 and C3: ordering guarantees of the topological sequencer.
The development establishes the graph-construction invariants, a full
invariant of the Kahn worklist loop, and the structure of the final order. -/
theorem countP_erase_of_pos {α : Type} [DecidableEq α] (p : α → Bool) (l : List α) (a : α)
    (ha : a ∈ l) (hp : p a = true) :
    List.countP p l = List.countP p (l.erase a) + 1 := by
  have hperm := List.perm_cons_erase ha
  rw [List.Perm.countP_eq p hperm, List.countP_cons_of_pos p _ hp]

theorem countP_lt_of_missing {α : Type} [DecidableEq α] (p : α → Bool) (l1 l2 : List α)
    (hn1 : l1.Nodup) (hsub : l1 ⊆ l2) (a : α) (ha2 : a ∈ l2) (ha1 : a ∉ l1)
    (hp : p a = true) : List.countP p l1 < List.countP p l2 := by
  have hsub2 : l1 ⊆ l2.erase a := by
    intro x hx
    have hxa : x ≠ a := fun he => ha1 (he ▸ hx)
    exact (List.mem_erase_of_ne hxa).mpr (hsub hx)
  have hle : List.countP p l1 ≤ List.countP p (l2.erase a) :=
    List.Subperm.countP_le p (List.Nodup.subperm hn1 hsub2)
  have heq := countP_erase_of_pos p l2 a ha2 hp
  omega

theorem countP_full_of_eq {α : Type} [DecidableEq α] (p : α → Bool) (l1 l2 : List α)
    (hn1 : l1.Nodup) (hsub : l1 ⊆ l2) (heq : List.countP p l1 = List.countP p l2) :
    ∀ a ∈ l2, p a = true → a ∈ l1 := by
  intro a ha2 hp
  by_contra ha1
  exact absurd heq (Nat.ne_of_lt (countP_lt_of_missing p l1 l2 hn1 hsub a ha2 ha1 hp))

theorem countP_flip_one {α : Type} [DecidableEq α] (p q : α → Bool) (l : List α) (a : α)
    (hn : l.Nodup) (ha : a ∈ l) (hpa : p a = false) (hqa : q a = true)
    (hrest : ∀ x ∈ l, x ≠ a → p x = q x) :
    List.countP q l = List.countP p l + 1 := by
  have hperm := List.perm_cons_erase ha
  rw [List.Perm.countP_eq q hperm, List.Perm.countP_eq p hperm]
  rw [List.countP_cons_of_pos q _ hqa, List.countP_cons_of_neg p _ (by simp [hpa])]
  have hcongr : List.countP q (l.erase a) = List.countP p (l.erase a) := by
    refine List.countP_congr ?_
    intro x hx
    have hxa : x ≠ a ∧ x ∈ l := (List.Nodup.mem_erase_iff hn).mp hx
    rw [hrest x hxa.2 hxa.1]
  rw [hcongr]

theorem kahnLoop_nil (out_e : String → List String) (fuel : Nat) (deg : String → Int)
    (order : List String) : kahnLoop out_e fuel [] deg order = (order, deg) := by
  cases fuel <;> rfl

theorem kahnLoop_succ (out_e : String → List String) (fuel : Nat) (v : String)
    (rest : List String) (deg : String → Int) (order : List String) :
    kahnLoop out_e (fuel + 1) (v :: rest) deg order =
      kahnLoop out_e fuel (sortStr (relax out_e v deg rest).2)
        (relax out_e v deg rest).1 (order ++ [v]) := rfl

theorem relaxFold (L : List String) (hL : L.Nodup) :
    ∀ (deg : String → Int) (q : List String),
    L.foldl (fun (st : (String → Int) × List String) (w : String) =>
        ((fun k => if k = w then st.1 w - 1 else st.1 k),
         if st.1 w - 1 = 0 then st.2 ++ [w] else st.2)) (deg, q) =
      ((fun k => if k ∈ L then deg k - 1 else deg k),
       q ++ L.filter (fun w => decide (deg w = 1))) := by
  induction L with
  | nil => intro deg q; simp
  | cons w L2 ih =>
    intro deg q
    have hw : w ∉ L2 := (List.nodup_cons.mp hL).1
    have hL2 : L2.Nodup := (List.nodup_cons.mp hL).2
    rw [List.foldl_cons, ih hL2]
    refine Prod.ext ?_ ?_
    · funext k
      by_cases hk2 : k ∈ L2
      · have hkw : k ≠ w := fun he => hw (he ▸ hk2)
        simp [hk2, hkw, List.mem_cons]
      · by_cases hkw : k = w
        · subst hkw
          simp [hk2, hw]
        · simp [hk2, hkw, List.mem_cons]
    · show (if deg w - 1 = 0 then q ++ [w] else q) ++
          L2.filter (fun x => decide ((fun k => if k = w then deg w - 1 else deg k) x = 1)) =
          q ++ List.filter (fun x => decide (deg x = 1)) (w :: L2)
      have hfc : L2.filter (fun x => decide ((fun k => if k = w then deg w - 1 else deg k) x = 1)) =
          L2.filter (fun x => decide (deg x = 1)) := by
        refine List.filter_congr ?_
        intro x hx
        have hxw : x ≠ w := fun he => hw (he ▸ hx)
        simp [hxw]
      rw [hfc]
      by_cases hd : deg w = 1
      · have : deg w - 1 = 0 := by omega
        simp [this, hd, List.filter_cons, List.append_assoc]
      · have : ¬ (deg w - 1 = 0) := by omega
        simp [this, hd, List.filter_cons]

theorem relax_spec (out_e : String → List String) (v : String) (deg : String → Int)
    (q : List String) (hnd : (out_e v).Nodup) :
    relax out_e v deg q =
      ((fun k => if k ∈ out_e v then deg k - 1 else deg k),
       q ++ (sortStr (out_e v)).filter (fun w => decide (deg w = 1))) := by
  unfold relax
  have hsn : (sortStr (out_e v)).Nodup := sortStr_nodup _ hnd
  rw [relaxFold (sortStr (out_e v)) hsn deg q]
  refine Prod.ext ?_ rfl
  funext k
  by_cases hk : k ∈ out_e v
  · simp [hk, (sortStr_mem (out_e v) k).mpr hk]
  · have : k ∉ sortStr (out_e v) := fun hc => hk ((sortStr_mem (out_e v) k).mp hc)
    simp [hk, this]

theorem idsOf_nodup (symbols : List TSym) : (idsOf symbols).Nodup := List.nodup_dedup _

theorem projId_mem_ids (symbols : List TSym) (s : TSym) (sid : String)
    (hs : s ∈ symbols) (hp : projId s = some sid) : sid ∈ idsOf symbols := by
  unfold idsOf
  rw [List.mem_dedup]
  exact List.mem_filterMap.mpr ⟨s, hs, hp⟩

theorem buildGraph_spec (symbols : List TSym) :
    (∀ u, u ∉ idsOf symbols → (buildGraph symbols).1 u = []) ∧
    (∀ u, ((buildGraph symbols).1 u).Nodup) ∧
    (∀ u w, w ∈ (buildGraph symbols).1 u → w ∈ idsOf symbols) ∧
    (∀ v, (buildGraph symbols).2 v =
      (((idsOf symbols).countP (fun u => decide (v ∈ (buildGraph symbols).1 u))) : Int)) := by
  unfold buildGraph
  have hnd : (idsOf symbols).Nodup := idsOf_nodup symbols
  refine @foldl_inv_mem _ _
    (fun acc => (∀ u, u ∉ idsOf symbols → acc.1 u = []) ∧
      (∀ u, (acc.1 u).Nodup) ∧
      (∀ u w, w ∈ acc.1 u → w ∈ idsOf symbols) ∧
      (∀ v, acc.2 v = (((idsOf symbols).countP (fun u => decide (v ∈ acc.1 u))) : Int)))
    symbols (addEdges (idsOf symbols)) ?_ (fun _ => [], fun _ => 0) ?_
  · intro acc s hs hP
    unfold addEdges
    cases hpj : projId s with
    | none => exact hP
    | some sid =>
      have hsid : sid ∈ idsOf symbols := projId_mem_ids symbols s sid hs hpj
      refine @foldl_inv_mem _ _
        (fun acc2 => (∀ u, u ∉ idsOf symbols → acc2.1 u = []) ∧
          (∀ u, (acc2.1 u).Nodup) ∧
          (∀ u w, w ∈ acc2.1 u → w ∈ idsOf symbols) ∧
          (∀ v, acc2.2 v = (((idsOf symbols).countP (fun u => decide (v ∈ acc2.1 u))) : Int)))
        s.calls _ ?_ acc hP
      intro acc2 d hd hP2
      obtain ⟨h1, h2, h3, h4⟩ := hP2
      by_cases hdi : d ∈ idsOf symbols
      · by_cases hda : d ∈ acc2.1 sid
        · simp only [hdi, if_true, hda, if_true]
          exact ⟨h1, h2, h3, h4⟩
        · simp only [hdi, if_true, hda, if_false]
          refine ⟨?_, ?_, ?_, ?_⟩
          · intro u hu
            have : u ≠ sid := fun he => hu (he ▸ hsid)
            simp [this, h1 u hu]
          · intro u
            by_cases hu : u = sid
            · subst hu
              simp only [if_true]
              rw [List.nodup_append]
              exact ⟨h2 u, List.nodup_singleton d, by simp [hda]⟩
            · simp [hu, h2 u]
          · intro u w hw
            by_cases hu : u = sid
            · subst hu
              simp only [if_true] at hw
              rcases List.mem_append.mp hw with h | h
              · exact h3 u w h
              · exact (List.mem_singleton.mp h) ▸ hdi
            · simp only [hu, if_false] at hw
              exact h3 u w hw
          · intro v
            by_cases hv : v = d
            · subst hv
              simp only [if_true]
              have hflip : List.countP (fun u => decide (v ∈ (fun k =>
                  if k = sid then acc2.1 sid ++ [v] else acc2.1 k) u)) (idsOf symbols) =
                  List.countP (fun u => decide (v ∈ acc2.1 u)) (idsOf symbols) + 1 := by
                refine countP_flip_one _ _ _ sid hnd hsid ?_ ?_ ?_
                · simp [hda]
                · simp
                · intro x hx hxs
                  simp [hxs]
              rw [hflip, h4 v]
              push_cast
              ring
            · simp only [hv, if_false]
              rw [h4 v]
              congr 1
              refine List.countP_congr ?_
              intro u hu
              by_cases hus : u = sid
              · subst hus
                simp [hv]
              · simp [hus]
      · simp only [hdi, if_false]
        exact ⟨h1, h2, h3, h4⟩
  · refine ⟨fun u _ => rfl, fun u => List.nodup_nil, fun u w hw => absurd hw (List.not_mem_nil w), ?_⟩
    intro v
    simp

theorem kahnLoop_master (out_e : String → List String) (ids : List String)
    (_hids : ids.Nodup)
    (hadj0 : ∀ u, u ∉ ids → out_e u = [])
    (hadjN : ∀ u, (out_e u).Nodup)
    (hadjM : ∀ u w, w ∈ out_e u → w ∈ ids)
    (deg0 : String → Int)
    (hdeg0 : ∀ v, deg0 v = ((ids.countP (fun u => decide (v ∈ out_e u))) : Int)) :
    ∀ (fuel : Nat) (q order : List String) (deg : String → Int),
      q.Nodup → (∀ v ∈ q, v ∈ ids) →
      order.Nodup → (∀ v ∈ order, v ∈ ids) →
      (∀ v ∈ q, v ∉ order) → (∀ v ∈ q, deg v = 0) →
      (∀ v ∈ order, deg v ≤ 0) →
      (∀ v, deg v = deg0 v - ((order.countP (fun u => decide (v ∈ out_e u))) : Int)) →
      (∀ v ∈ ids, v ∉ order → v ∉ q → 0 < deg v) →
      (∀ b ∈ order, ∀ a, b ∈ out_e a →
         a ∈ order ∧ List.indexOf a order < List.indexOf b order) →
      ids.length ≤ fuel + order.length →
      ((kahnLoop out_e fuel q deg order).1.Nodup ∧
       (∀ v ∈ (kahnLoop out_e fuel q deg order).1, v ∈ ids) ∧
       (∀ v ∈ ids, v ∉ (kahnLoop out_e fuel q deg order).1 →
          0 < (kahnLoop out_e fuel q deg order).2 v) ∧
       (∀ b ∈ (kahnLoop out_e fuel q deg order).1, ∀ a, b ∈ out_e a →
          a ∈ (kahnLoop out_e fuel q deg order).1 ∧
          List.indexOf a (kahnLoop out_e fuel q deg order).1 <
            List.indexOf b (kahnLoop out_e fuel q deg order).1)) := by
  intro fuel
  induction fuel with
  | zero =>
    intro q order deg hqN hqI hoN hoI hqo hq0 hole hI7 hI8 hI9 hfuel
    cases q with
    | nil =>
      rw [kahnLoop_nil]
      exact ⟨hoN, hoI, fun v hv hno => hI8 v hv hno (List.not_mem_nil v), hI9⟩
    | cons v rest =>
      exfalso
      have hvI : v ∈ ids := hqI v (List.mem_cons_self v rest)
      have hvO : v ∉ order := hqo v (List.mem_cons_self v rest)
      have hsub : (v :: order) ⊆ ids := by
        intro x hx
        rcases List.mem_cons.mp hx with h | h
        · exact h ▸ hvI
        · exact hoI x h
      have hnd : (v :: order).Nodup := List.nodup_cons.mpr ⟨hvO, hoN⟩
      have := List.Subperm.length_le (List.Nodup.subperm hnd hsub)
      simp only [List.length_cons] at this
      omega
  | succ fuel ih =>
    intro q order deg hqN hqI hoN hoI hqo hq0 hole hI7 hI8 hI9 hfuel
    cases q with
    | nil =>
      rw [kahnLoop_nil]
      exact ⟨hoN, hoI, fun v hv hno => hI8 v hv hno (List.not_mem_nil v), hI9⟩
    | cons v rest =>
      have hvI : v ∈ ids := hqI v (List.mem_cons_self v rest)
      have hvO : v ∉ order := hqo v (List.mem_cons_self v rest)
      have hv0 : deg v = 0 := hq0 v (List.mem_cons_self v rest)
      have hvrest : v ∉ rest := (List.nodup_cons.mp hqN).1
      have hrestN : rest.Nodup := (List.nodup_cons.mp hqN).2
      rw [kahnLoop_succ, relax_spec out_e v deg rest (hadjN v)]
      simp only
      set F := (sortStr (out_e v)).filter (fun w => decide (deg w = 1)) with hF
      set deg2 := fun k => if k ∈ out_e v then deg k - 1 else deg k with hdeg2
      have hFm : ∀ w ∈ F, w ∈ out_e v ∧ deg w = 1 := by
        intro w hw
        rw [hF, List.mem_filter] at hw
        exact ⟨(sortStr_mem _ w).mp hw.1, of_decide_eq_true hw.2⟩
      have hFN : F.Nodup := List.Nodup.filter _ (sortStr_nodup _ (hadjN v))
      have hFin : ∀ w, w ∈ out_e v → deg w = 1 → w ∈ F := by
        intro w hw hd
        rw [hF, List.mem_filter]
        exact ⟨(sortStr_mem _ w).mpr hw, decide_eq_true hd⟩
      have hqmem : ∀ x, x ∈ sortStr (rest ++ F) ↔ (x ∈ rest ∨ x ∈ F) := by
        intro x
        rw [sortStr_mem, List.mem_append]
      -- the count of predecessors of a node x among order compared to all of ids
      have hcnt_lt : ∀ x, x ∈ out_e v →
          ((order.countP (fun u => decide (x ∈ out_e u))) : Int) <
          ((ids.countP (fun u => decide (x ∈ out_e u))) : Int) := by
        intro x hx
        have := countP_lt_of_missing (fun u => decide (x ∈ out_e u)) order ids hoN hoI
          v hvI hvO (decide_eq_true hx)
        exact_mod_cast this
      have hdeg2pos : ∀ x, x ∈ out_e v → 0 < deg x := by
        intro x hx
        have h7 := hI7 x
        have hlt := hcnt_lt x hx
        rw [hdeg0 x] at h7
        omega
      -- invariants for the recursive call
      have hq2N : (sortStr (rest ++ F)).Nodup := by
        refine sortStr_nodup _ ?_
        rw [List.nodup_append]
        refine ⟨hrestN, hFN, ?_⟩
        intro x hxr hxF
        have h0 : deg x = 0 := hq0 x (List.mem_cons_of_mem v hxr)
        have h1 : deg x = 1 := (hFm x hxF).2
        omega
      have hq2I : ∀ x ∈ sortStr (rest ++ F), x ∈ ids := by
        intro x hx
        rcases (hqmem x).mp hx with h | h
        · exact hqI x (List.mem_cons_of_mem v h)
        · exact hadjM v x (hFm x h).1
      have ho2N : (order ++ [v]).Nodup := by
        rw [List.nodup_append]
        exact ⟨hoN, List.nodup_singleton v, fun x hx hxv => hvO ((List.mem_singleton.mp hxv) ▸ hx)⟩
      have ho2I : ∀ x ∈ order ++ [v], x ∈ ids := by
        intro x hx
        rcases List.mem_append.mp hx with h | h
        · exact hoI x h
        · exact (List.mem_singleton.mp h) ▸ hvI
      have hqo2 : ∀ x ∈ sortStr (rest ++ F), x ∉ order ++ [v] := by
        intro x hx hmem
        rcases (hqmem x).mp hx with h | h
        · rcases List.mem_append.mp hmem with h2 | h2
          · exact hqo x (List.mem_cons_of_mem v h) h2
          · exact hvrest ((List.mem_singleton.mp h2) ▸ h)
        · have h1 : deg x = 1 := (hFm x h).2
          rcases List.mem_append.mp hmem with h2 | h2
          · have := hole x h2
            omega
          · rw [List.mem_singleton.mp h2] at h1
            omega
      have hq20 : ∀ x ∈ sortStr (rest ++ F), deg2 x = 0 := by
        intro x hx
        rcases (hqmem x).mp hx with h | h
        · have h0 : deg x = 0 := hq0 x (List.mem_cons_of_mem v h)
          have hxe : x ∉ out_e v := by
            intro hxe
            have := hdeg2pos x hxe
            omega
          rw [hdeg2]
          simp [hxe, h0]
        · obtain ⟨hxe, h1⟩ := hFm x h
          rw [hdeg2]
          simp [hxe]
          omega
      have hole2 : ∀ x ∈ order ++ [v], deg2 x ≤ 0 := by
        intro x hx
        rcases List.mem_append.mp hx with h | h
        · have := hole x h
          rw [hdeg2]
          by_cases hxe : x ∈ out_e v <;> simp [hxe] <;> omega
        · rw [List.mem_singleton.mp h, hdeg2]
          by_cases hxe : v ∈ out_e v <;> simp [hxe] <;> omega
      have hI72 : ∀ x, deg2 x = deg0 x -
          (((order ++ [v]).countP (fun u => decide (x ∈ out_e u))) : Int) := by
        intro x
        have h7 := hI7 x
        rw [List.countP_append]
        by_cases hxe : x ∈ out_e v
        · have hone : List.countP (fun u => decide (x ∈ out_e u)) [v] = 1 := by
            simp [List.countP_cons, hxe]
          rw [hone, hdeg2]
          simp only [hxe, if_true]
          push_cast
          omega
        · have hzero : List.countP (fun u => decide (x ∈ out_e u)) [v] = 0 := by
            simp [List.countP_cons, hxe]
          rw [hzero, hdeg2]
          simp only [hxe, if_false]
          push_cast
          omega
      have hI82 : ∀ x ∈ ids, x ∉ order ++ [v] → x ∉ sortStr (rest ++ F) → 0 < deg2 x := by
        intro x hxI hxo hxq
        have hxv : x ≠ v := fun he => hxo (List.mem_append.mpr (Or.inr (he ▸ List.mem_singleton_self v)))
        have hxor : x ∉ order := fun hc => hxo (List.mem_append.mpr (Or.inl hc))
        have hxrest : x ∉ rest := fun hc => hxq ((hqmem x).mpr (Or.inl hc))
        have hxF : x ∉ F := fun hc => hxq ((hqmem x).mpr (Or.inr hc))
        have hxq0 : x ∉ v :: rest := by
          intro hc
          rcases List.mem_cons.mp hc with h | h
          · exact hxv h
          · exact hxrest h
        have hpos : 0 < deg x := hI8 x hxI hxor hxq0
        rw [hdeg2]
        by_cases hxe : x ∈ out_e v
        · have hne1 : deg x ≠ 1 := by
            intro h1
            exact hxF (hFin x hxe h1)
          simp only [hxe, if_true]
          omega
        · simp only [hxe, if_false]
          exact hpos
      have hI92 : ∀ b ∈ order ++ [v], ∀ a, b ∈ out_e a →
          a ∈ order ++ [v] ∧
          List.indexOf a (order ++ [v]) < List.indexOf b (order ++ [v]) := by
        intro b hb a hedge
        rcases List.mem_append.mp hb with hbo | hbv
        · obtain ⟨hao, hidx⟩ := hI9 b hbo a hedge
          refine ⟨List.mem_append.mpr (Or.inl hao), ?_⟩
          rw [indexOf_append_left a order [v] hao, indexOf_append_left b order [v] hbo]
          exact hidx
        · have hbv2 : b = v := List.mem_singleton.mp hbv
          rw [hbv2] at hedge
          rw [hbv2]
          have haI : a ∈ ids := by
            by_contra hc
            rw [hadj0 a hc] at hedge
            exact List.not_mem_nil v hedge
          have hcq : List.countP (fun u => decide (v ∈ out_e u)) order =
              List.countP (fun u => decide (v ∈ out_e u)) ids := by
            have h7 := hI7 v
            rw [hdeg0 v, hv0] at h7
            omega
          have hao : a ∈ order :=
            countP_full_of_eq (fun u => decide (v ∈ out_e u)) order ids hoN hoI hcq
              a haI (decide_eq_true hedge)
          refine ⟨List.mem_append.mpr (Or.inl hao), ?_⟩
          rw [indexOf_append_left a order [v] hao,
              indexOf_append_not_mem v order [v] hvO]
          have : List.indexOf a order < order.length := List.indexOf_lt_length.mpr hao
          simp only [List.indexOf_cons_self]
          omega
      have hfuel2 : ids.length ≤ fuel + (order ++ [v]).length := by
        rw [List.length_append]
        simp only [List.length_singleton]
        omega
      exact ih (sortStr (rest ++ F)) (order ++ [v]) deg2 hq2N hq2I ho2N ho2I hqo2 hq20
        hole2 hI72 hI82 hI92 hfuel2

theorem kahn_phase_spec (symbols : List TSym) :
    (kahn_phase symbols).Nodup ∧
    (∀ v ∈ kahn_phase symbols, v ∈ idsOf symbols) ∧
    (∀ v ∈ idsOf symbols, v ∉ kahn_phase symbols → 0 < (kahnState symbols).2 v) ∧
    (∀ b ∈ kahn_phase symbols, ∀ a, b ∈ (buildGraph symbols).1 a →
       a ∈ kahn_phase symbols ∧
       List.indexOf a (kahn_phase symbols) < List.indexOf b (kahn_phase symbols)) := by
  obtain ⟨hadj0, hadjN, hadjM, hdeg0⟩ := buildGraph_spec symbols
  have hids := idsOf_nodup symbols
  have hq0N : (sortStr ((idsOf symbols).filter
      (fun v => decide ((buildGraph symbols).2 v = 0)))).Nodup :=
    sortStr_nodup _ (List.Nodup.filter _ hids)
  have hq0I : ∀ v ∈ sortStr ((idsOf symbols).filter
      (fun v => decide ((buildGraph symbols).2 v = 0))), v ∈ idsOf symbols := by
    intro v hv
    exact List.mem_of_mem_filter ((sortStr_mem _ v).mp hv)
  have hq00 : ∀ v ∈ sortStr ((idsOf symbols).filter
      (fun v => decide ((buildGraph symbols).2 v = 0))), (buildGraph symbols).2 v = 0 := by
    intro v hv
    exact of_decide_eq_true (List.mem_filter.mp ((sortStr_mem _ v).mp hv)).2
  have hI8 : ∀ v ∈ idsOf symbols, v ∉ ([] : List String) →
      v ∉ sortStr ((idsOf symbols).filter
        (fun v => decide ((buildGraph symbols).2 v = 0))) → 0 < (buildGraph symbols).2 v := by
    intro v hvI _ hq
    have hnn : 0 ≤ (buildGraph symbols).2 v := by
      rw [hdeg0 v]
      exact Int.natCast_nonneg _
    rcases lt_or_eq_of_le hnn with h | h
    · exact h
    · exfalso
      refine hq ((sortStr_mem _ v).mpr (List.mem_filter.mpr ⟨hvI, ?_⟩))
      exact decide_eq_true h.symm
  have hmaster := kahnLoop_master (buildGraph symbols).1 (idsOf symbols) hids hadj0 hadjN hadjM
    (buildGraph symbols).2 hdeg0 (idsOf symbols).length
    (sortStr ((idsOf symbols).filter (fun v => decide ((buildGraph symbols).2 v = 0))))
    [] (buildGraph symbols).2
    hq0N hq0I List.nodup_nil (fun v hv => absurd hv (List.not_mem_nil v))
    (fun v _ => List.not_mem_nil v) hq00
    (fun v hv => absurd hv (List.not_mem_nil v))
    (by intro v; simp)
    hI8
    (fun b hb => absurd hb (List.not_mem_nil b))
    (by simp)
  exact hmaster

theorem topoRemaining_nodup (symbols : List TSym) : (topoRemaining symbols).Nodup :=
  sortStr_nodup _ (List.Nodup.filter _ (idsOf_nodup symbols))

theorem topoRemaining_not_kahn (symbols : List TSym) :
    ∀ x ∈ topoRemaining symbols, x ∉ kahn_phase symbols := by
  intro x hx hmem
  have hf := (List.mem_filter.mp ((sortStr_mem _ x).mp hx)).2
  rw [Bool.and_eq_true] at hf
  have : (kahn_phase symbols).contains x = true := List.elem_iff.mpr hmem
  rw [this] at hf
  exact absurd hf.2 (by simp)

theorem topoRemaining_sub (symbols : List TSym) :
    ∀ x ∈ topoRemaining symbols, x ∈ idsOf symbols := by
  intro x hx
  exact List.mem_of_mem_filter ((sortStr_mem _ x).mp hx)

theorem topo_false_parts (symbols : List TSym) :
    topo_order symbols false = kahn_phase symbols ++ topoRemaining symbols := rfl

theorem topo_true_parts (symbols : List TSym) :
    topo_order symbols true = (kahn_phase symbols ++ topoRemaining symbols).reverse := rfl

theorem topo_false_nodup (symbols : List TSym) : (topo_order symbols false).Nodup := by
  rw [topo_false_parts, List.nodup_append]
  exact ⟨(kahn_phase_spec symbols).1, topoRemaining_nodup symbols,
    fun x hx hx2 => topoRemaining_not_kahn symbols x hx2 hx⟩

theorem topo_false_cover (symbols : List TSym) :
    ∀ v, v ∈ topo_order symbols false ↔ v ∈ idsOf symbols := by
  intro v
  rw [topo_false_parts, List.mem_append]
  constructor
  · intro h
    rcases h with h | h
    · exact (kahn_phase_spec symbols).2.1 v h
    · exact topoRemaining_sub symbols v h
  · intro hvI
    by_cases hk : v ∈ kahn_phase symbols
    · exact Or.inl hk
    · refine Or.inr ((sortStr_mem _ v).mpr (List.mem_filter.mpr ⟨hvI, ?_⟩))
      rw [Bool.and_eq_true]
      refine ⟨decide_eq_true ((kahn_phase_spec symbols).2.2.1 v hvI hk), ?_⟩
      rw [Bool.not_eq_true']
      rw [Bool.eq_false_iff]
      intro hc
      exact hk (List.elem_iff.mp hc)

/-- C2 counterexample: in a graph with a two-cycle c-d, an edge d to z and an
edge z to a, neither z nor a lies on a directed cycle, yet the order places a
before z (both fall through to the residual phase because they sit downstream
of the cycle and their in-degrees never reach zero), and the reversed order
places z before a — refuting the claim for both values of reverse. -/
theorem c2_counterexample :
    "a" ∈ (buildGraph downstreamSyms).1 "z" ∧
    "z" ∈ idsOf downstreamSyms ∧ "a" ∈ idsOf downstreamSyms ∧
    ¬ onCycle downstreamSyms "z" ∧ ¬ onCycle downstreamSyms "a" ∧
    ¬ (List.indexOf "z" (topo_order downstreamSyms false) <
       List.indexOf "a" (topo_order downstreamSyms false)) ∧
    ¬ (List.indexOf "a" (topo_order downstreamSyms true) <
       List.indexOf "z" (topo_order downstreamSyms true)) := by decide

/-- C2 amended: for every calls-edge a to b between project symbols whose
target b is emitted by the Kahn phase (its in-degree reached zero), the order
returned with reverse=false places a strictly before b, and the order
returned with reverse=true places b strictly before a. -/
theorem c2_acyclic_edge_order (symbols : List TSym) (a b : String)
    (hb : b ∈ kahn_phase symbols)
    (he : b ∈ (buildGraph symbols).1 a) :
    List.indexOf a (topo_order symbols false) < List.indexOf b (topo_order symbols false) ∧
    List.indexOf b (topo_order symbols true) < List.indexOf a (topo_order symbols true) := by
  obtain ⟨hao, hidx⟩ := (kahn_phase_spec symbols).2.2.2 b hb a he
  have hidxf : List.indexOf a (topo_order symbols false) <
      List.indexOf b (topo_order symbols false) := by
    rw [topo_false_parts, indexOf_append_left a _ _ hao, indexOf_append_left b _ _ hb]
    exact hidx
  refine ⟨hidxf, ?_⟩
  rw [topo_true_parts]
  have hfull := topo_false_nodup symbols
  rw [topo_false_parts] at hfull
  have haf : a ∈ kahn_phase symbols ++ topoRemaining symbols :=
    List.mem_append.mpr (Or.inl hao)
  have hbf : b ∈ kahn_phase symbols ++ topoRemaining symbols :=
    List.mem_append.mpr (Or.inl hb)
  refine indexOf_reverse_flip _ hfull a b haf hbf ?_
  rw [topo_false_parts] at hidxf
  exact hidxf

/-- C2 witness: the amended ordering property on the two-node chain
x calls y, whose target y is emitted by the Kahn phase. -/
theorem c2_witness :
    List.indexOf "x" (topo_order c2Syms false) < List.indexOf "y" (topo_order c2Syms false) ∧
    List.indexOf "y" (topo_order c2Syms true) < List.indexOf "x" (topo_order c2Syms true) :=
  c2_acyclic_edge_order c2Syms "x" "y" (by decide) (by decide)

/-- C3: topo_order with reverse=false is a total deterministic order: it has
no duplicates, contains exactly the in-project symbol ids, splits into the
Kahn-emitted prefix followed by the residual nodes (exactly the ids the Kahn
phase did not emit) sorted ascending, and on three symbols a, b, c forming
the pure cycle a calls b calls c calls a the output is [a, b, c] whatever
the input order. -/
theorem c3_total_deterministic :
    (∀ symbols : List TSym, (topo_order symbols false).Nodup) ∧
    (∀ symbols : List TSym, ∀ v, v ∈ topo_order symbols false ↔ v ∈ idsOf symbols) ∧
    (∀ symbols : List TSym, topo_order symbols false =
       kahn_phase symbols ++ sortStr ((idsOf symbols).filter
         (fun v => !(kahn_phase symbols).contains v))) ∧
    (∀ l : List TSym, l.Perm [cycSymA, cycSymB, cycSymC] →
       topo_order l false = ["a", "b", "c"]) := by
  refine ⟨topo_false_nodup, topo_false_cover, ?_, ?_⟩
  · intro symbols
    rw [topo_false_parts]
    congr 1
    unfold topoRemaining
    congr 1
    refine List.filter_congr ?_
    intro v hvI
    by_cases hk : v ∈ kahn_phase symbols
    · have hc : (kahn_phase symbols).contains v = true := List.elem_iff.mpr hk
      rw [hc]
      simp
    · have hc : (kahn_phase symbols).contains v = false := by
        rw [Bool.eq_false_iff]
        intro hc2
        exact hk (List.elem_iff.mp hc2)
      rw [hc]
      simp [(kahn_phase_spec symbols).2.2.1 v hvI hk]
  · intro l hp
    have hlen : l.length = 3 := by rw [hp.length_eq]; rfl
    have hnd : l.Nodup := hp.nodup_iff.mpr (by decide)
    rcases l with _ | ⟨x, _ | ⟨y, _ | ⟨z, _ | ⟨w, t⟩⟩⟩⟩ <;> simp at hlen
    have hx : x ∈ [cycSymA, cycSymB, cycSymC] := hp.mem_iff.mp (by simp)
    have hy : y ∈ [cycSymA, cycSymB, cycSymC] := hp.mem_iff.mp (by simp)
    have hz : z ∈ [cycSymA, cycSymB, cycSymC] := hp.mem_iff.mp (by simp)
    simp only [List.mem_cons, List.not_mem_nil, or_false] at hx hy hz
    rcases hx with rfl | rfl | rfl <;> rcases hy with rfl | rfl | rfl <;>
      rcases hz with rfl | rfl | rfl <;>
      first
        | decide
        | (exact absurd hnd (by decide))

/-- C3 witness: the cycle scenario instantiated at one permuted input order,
together with the duplicate-freeness of the order on another input. -/
theorem c3_witness :
    topo_order [cycSymB, cycSymC, cycSymA] false = ["a", "b", "c"] ∧
    (topo_order downstreamSyms false).Nodup :=
  ⟨c3_total_deterministic.2.2.2 [cycSymB, cycSymC, cycSymA] (by decide),
   c3_total_deterministic.1 downstreamSyms⟩
